import Mathlib

/-!
Verification of the route-matching engine of the ufiber repository.

The development shallowly embeds the routing core:

* `src/src/router/reg-exp/node.ts` — the Pattern Node tree (`Node.insert`,
  `compareKey`, `Node.buildRegExpStr`) and `Trie.insert` with its
  brace-placeholder tokenization pass;
* `src/src/router/trie-tree/index.ts` — `checkOptionalParameter`,
  `splitRoutingPath`, `splitPath` and the group-mark replacement helpers.

JavaScript strings are modelled as `List Char` (`Chars`); JavaScript numbers
used here are naturals; the `PATH_ERROR` sentinel thrown by `Node.insert`
becomes the `Except Unit` error channel, so the dry-run probe of the source is
a plain branch on the result.  Mutation of the shared tree / var-index context
is modelled by explicit state passing: `insert` returns the updated tree,
counter and parameter association list.

Components of the repository that are only referenced from `src/` but whose
implementation files are absent (the SmartRouter adaptive selector and the
RegExpRouter add/match aggregation) are modelled from the specification; each
such definition carries a doc comment starting with `Modelled from the spec:`.
-/

/-- JavaScript strings are modelled as lists of chars. -/
abbrev Chars := List Char

/-- Coercion from Lean string literals to the `Chars` model. -/
def cs (s : String) : Chars := s.data

/-- Lexicographic (code-unit) comparison, the model of JavaScript `a < b`
on strings. -/
def lexLt : Chars → Chars → Bool
  | [], [] => false
  | [], _ :: _ => true
  | _ :: _, [] => false
  | a :: as, b :: bs => if a = b then lexLt as bs else decide (a < b)

/-- Boolean prefix test: `isPrefixL pat s` holds when `pat` begins `s`. -/
def isPrefixL : Chars → Chars → Bool
  | [], _ => true
  | _ :: _, [] => false
  | p :: ps, c :: rest => p = c && isPrefixL ps rest

/-- Model of JavaScript `s.indexOf(pat) !== -1` (substring containment). -/
def containsSub : Chars → Chars → Bool
  | [], pat => pat.isEmpty
  | c :: rest, pat => isPrefixL pat (c :: rest) || containsSub rest pat

/-- Model of JavaScript `s.replace(pat, repl)` with plain-string arguments:
the first occurrence of `pat` is replaced.  (The `$`-replacement patterns of
JavaScript are not modelled; no string handled here contains them.) -/
def replaceFirstSub (pat repl : Chars) : Chars → Chars
  | [] => []
  | c :: rest =>
    if isPrefixL pat (c :: rest) then repl ++ (c :: rest).drop pat.length
    else c :: replaceFirstSub pat repl rest

/-- Decimal digits of `n % 10 ...`, fuel-driven so that it reduces in the
kernel; `natDec` below supplies sufficient fuel. -/
def natDecCore : Nat → Nat → Chars → Chars
  | 0, _, acc => acc
  | fuel + 1, n, acc =>
    let d := Char.ofNat (48 + n % 10)
    if n < 10 then d :: acc else natDecCore fuel (n / 10) (d :: acc)

/-- Decimal representation of a natural, the model of JavaScript template
interpolation of a number (as in the placeholder marks). -/
def natDec (n : Nat) : Chars := natDecCore (n + 1) n []

/-- The JavaScript `.` regex class excludes line terminators. -/
def isLineTerm (c : Char) : Bool :=
  c = '\n' || c = '\r' || c = Char.ofNat 0x2028 || c = Char.ofNat 0x2029

/-! ## Tokenization used by `Trie.insert` (reg-exp/node.ts lines 159-196)

`Trie.insert` first replaces every brace group `{...}` by a mark `@\i`
(looping until a pass makes no replacement), then splits the path with the
regex `/(?::[^\/]+)|(?:\/\*$)|./g`, then restores the marks from the last
group to the first, each into the last token containing its mark. -/

/-- One segment-token scan of the marked path: the model of
`path.match(/(?::[^\/]+)|(?:\/\*$)|./g)`.  `buf` holds the reversed chars of a
`:`-parameter token being consumed (the `[^/]+` run). -/
def tokCore (buf : Option Chars) : Chars → List Chars
  | [] =>
    match buf with
    | some b => [b.reverse]
    | none => []
  | c :: rest =>
    match buf with
    | some b =>
      if c = '/' then
        if rest = ['*'] then [b.reverse, cs "/*"]
        else b.reverse :: ['/'] :: tokCore none rest
      else tokCore (some (c :: b)) rest
    | none =>
      if c = ':' then
        match rest with
        | [] => [[':']]
        | c2 :: _ => if c2 = '/' then [':'] :: tokCore none rest else tokCore (some [':']) rest
      else if c = '/' ∧ rest = ['*'] then [cs "/*"]
      else if isLineTerm c then tokCore none rest
      else [c] :: tokCore none rest

/-- One global pass of `path.replace(/\{[^}]+\}/g, ...)`: each brace group is
replaced by the mark `@\i` (for the running counter `i`) and collected as a
`(mark, original)` pair.  `mode` buffers the reversed body of a tentatively
open group. -/
def passCore (i : Nat) (mode : Option Chars) : Chars → Chars × List (Chars × Chars)
  | [] =>
    match mode with
    | some b => ('\x7b' :: b.reverse, [])
    | none => ([], [])
  | c :: rest =>
    match mode with
    | some b =>
      if c = '\x7d' then
        if b = [] then
          let (out, gs) := passCore i none rest
          ('\x7b' :: '\x7d' :: out, gs)
        else
          let mark : Chars := '@' :: '\\' :: natDec i
          let orig : Chars := '\x7b' :: (b.reverse ++ ['\x7d'])
          let (out, gs) := passCore (i + 1) none rest
          (mark ++ out, (mark, orig) :: gs)
      else passCore i (some (c :: b)) rest
    | none =>
      if c = '\x7b' then passCore i (some []) rest
      else
        let (out, gs) := passCore i none rest
        (c :: out, gs)

/-- The `for (let i = 0;;)` replacement loop of `Trie.insert`: passes run
until one makes no replacement.  A pass that replaces removes at least one
right brace and inserts none, so `count of right braces + 1` passes always
suffice as fuel; the fuel-exhausted branch is therefore unreachable. -/
def braceLoop : Nat → Nat → Chars → List (Chars × Chars) → Chars × List (Chars × Chars)
  | 0, _, s, gs => (s, gs)
  | fuel + 1, i, s, gs =>
    let (s2, newGs) := passCore i none s
    if newGs.isEmpty then (s2, gs)
    else braceLoop fuel (i + newGs.length) s2 (gs ++ newGs)

/-- Replace, inside the last token that contains `mark`, the first occurrence
of `mark` by `orig` (`none` when no token contains the mark). -/
def replLastAux (mark orig : Chars) : List Chars → Option (List Chars)
  | [] => none
  | t :: ts =>
    match replLastAux mark orig ts with
    | some ts2 => some (t :: ts2)
    | none => if containsSub t mark then some (replaceFirstSub mark orig t :: ts) else none

/-- The inner restore loop of `Trie.insert`: find the last token containing
the mark and put the original group text back (no-op when absent). -/
def replaceLastTok (mark orig : Chars) (toks : List Chars) : List Chars :=
  (replLastAux mark orig toks).getD toks

/-- The outer restore loop: groups are processed from the last index down to
`0`, matching `for (let i = groups.length - 1; i >= 0; i--)`. -/
def restoreTokens (toks : List Chars) (groups : List (Chars × Chars)) : List Chars :=
  groups.foldr (fun g acc => replaceLastTok g.1 g.2 acc) toks

/-- The complete token list produced by `Trie.insert` for a path template:
brace-placeholder pass, segment-token split, mark restore. -/
def trieTokens (path : Chars) : List Chars :=
  let (s, groups) := braceLoop (path.count '\x7d' + 1) 0 path []
  restoreTokens (tokCore none s) groups

/-! ## The Pattern Node tree (reg-exp/node.ts lines 1-153) -/

/-- `'[^/]+'`, the generic label pattern. -/
def LABEL_REG_EXP_STR : Chars := cs "[^/]+"

/-- `'.*'`, the only-wildcard pattern (a bare trailing `*`). -/
def ONLY_WILDCARD_REG_EXP_STR : Chars := cs ".*"

/-- `'(?:|/.*)'`, the tail-wildcard pattern (a trailing `/*`). -/
def TAIL_WILDCARD_REG_EXP_STR : Chars := cs "(?:|/.*)"

/-- The child-key comparator of reg-exp/node.ts (`compareKey`), with
JavaScript's `-1 / 1 / length difference` convention. -/
def compareKey (a b : Chars) : Int :=
  if a.length = 1 then (if b.length = 1 then (if lexLt a b then -1 else 1) else -1)
  else if b.length = 1 then 1
  else if a = ONLY_WILDCARD_REG_EXP_STR ∨ a = TAIL_WILDCARD_REG_EXP_STR then 1
  else if b = ONLY_WILDCARD_REG_EXP_STR ∨ b = TAIL_WILDCARD_REG_EXP_STR then -1
  else if a = LABEL_REG_EXP_STR then 1
  else if b = LABEL_REG_EXP_STR then -1
  else if a.length = b.length then (if lexLt a b then -1 else 1)
  else (b.length : Int) - (a.length : Int)

mutual
/-- A Pattern Node: optional terminal handler index, optional capture-variable
index, and children keyed by token representation (insertion-ordered, as a
JavaScript `Record`). -/
inductive RNode where
  | mk (idx : Option Nat) (varIdx : Option Nat) (children : RChildren)

/-- The insertion-ordered child map of a Pattern Node. -/
inductive RChildren where
  | nil
  | cons (key : Chars) (node : RNode) (rest : RChildren)
end

/-- Terminal handler index of a node. -/
def RNode.idx : RNode → Option Nat
  | .mk i _ _ => i

/-- Capture-variable index of a node. -/
def RNode.varIdx : RNode → Option Nat
  | .mk _ v _ => v

/-- Children of a node. -/
def RNode.children : RNode → RChildren
  | .mk _ _ c => c

/-- Set the terminal handler index (`this.#index = index`). -/
def RNode.setIdx : RNode → Nat → RNode
  | .mk _ v c, i => .mk (some i) v c

/-- Replace the child map. -/
def RNode.setChildren : RNode → RChildren → RNode
  | .mk i v _, c => .mk i v c

/-- A node with no index, no var index and no children (`new Node()`). -/
def emptyRNode : RNode := .mk none none .nil

/-- Lookup `this.#children[key]`. -/
def childLookup : RChildren → Chars → Option RNode
  | .nil, _ => none
  | .cons k n r, key => if k = key then some n else childLookup r key

/-- `this.#children[key] = node`: update in place when the key exists,
append otherwise (JavaScript `Record` insertion order). -/
def childUpdate : RChildren → Chars → RNode → RChildren
  | .nil, key, node => .cons key node .nil
  | .cons k n r, key, node =>
    if k = key then .cons k node r else .cons k n (childUpdate r key node)

/-- `Object.keys(this.#children).some(p)`. -/
def childAnyP (p : Chars → Bool) : RChildren → Bool
  | .nil => false
  | .cons k _ r => p k || childAnyP p r

/-- The keys of the child map, in stored order. -/
def childKeys : RChildren → List Chars
  | .nil => []
  | .cons k _ r => k :: childKeys r

/-- The parameter token match `/^\:([^\{\}]+)(?:\{(.+)\})?$/` of
`Node.insert`: `some (name, constraint?)` when the token is a named
parameter. -/
def parseParamToken (tok : Chars) : Option (Chars × Option Chars) :=
  match tok with
  | ':' :: body =>
    let name := body.takeWhile (fun c => ¬(c = '\x7b' ∨ c = '\x7d'))
    if name = [] then none
    else
      match body.drop name.length with
      | [] => some (name, none)
      | '\x7b' :: r2 =>
        if 2 ≤ r2.length ∧ r2.getLast? = some '\x7d' ∧ r2.dropLast.all (fun c => ¬ isLineTerm c)
        then some (name, some r2.dropLast)
        else none
      | _ => none
  | _ => none

/-- The `pattern` computed at the top of `Node.insert` (lines 69-76): bare `*`
with nothing following is the only-wildcard, `*` with further tokens the
generic label, `/*` the tail-wildcard, otherwise the parameter-token match. -/
def patternOf (tok : Chars) (restTokens : List Chars) : Option (Chars × Option Chars) :=
  if tok = cs "*" then
    some ([], some (if restTokens.isEmpty then ONLY_WILDCARD_REG_EXP_STR else LABEL_REG_EXP_STR))
  else if tok = cs "/*" then some ([], some TAIL_WILDCARD_REG_EXP_STR)
  else parseParamToken tok

/-- The rewrite `regexpStr.replace(/^\((?!\?:)(?=[^)]+\)$)/, '(?:')`: a fully
parenthesized group `(...)` with no inner `)` and no `?:` is made
non-capturing. -/
def rewriteParen (s : Chars) : Chars :=
  match s with
  | '(' :: r =>
    if isPrefixL (cs "?:") r then s
    else if r.getLast? = some ')' ∧ r.dropLast ≠ [] ∧ r.dropLast.all (fun c => c ≠ ')') then
      '(' :: '?' :: ':' :: r
    else s
  | _ => s

/-- The test `/\((?!\?:)/.test(regexpStr)`: some `(` is not followed by
`?:`. -/
def hasCapturingGroup : Chars → Bool
  | [] => false
  | '(' :: r => if isPrefixL (cs "?:") r then hasCapturingGroup r else true
  | _ :: r => hasCapturingGroup r

/-- The constraint validation of `Node.insert` (lines 83-90): a bare `.*`
constraint and any remaining capturing group raise `PATH_ERROR`; a fully
parenthesized alternation is first rewritten to its non-capturing form. -/
def validateConstraint (s : Chars) : Except Unit Chars :=
  if s = cs ".*" then .error ()
  else
    let r := rewriteParen s
    if hasCapturingGroup r then .error () else .ok r

/-- Parameter association list built during insertion (`ParamAssocArray`);
the variable index is optional because the source reads `node.#varIndex`,
which is `undefined` on a node created through the literal branch. -/
abbrev PMap := List (Chars × Option Nat)

/-- The model of `Node.insert` (reg-exp/node.ts lines 49-127).  The mutated
tree, shared `context.varIndex` counter and `paramMap` are threaded
explicitly; the thrown `PATH_ERROR` sentinel is the `Except` error. -/
def nodeInsert : List Chars → Nat → PMap → Nat → Bool → RNode → Except Unit (RNode × Nat × PMap)
  | [], index, pm, ctx, chk, node =>
    match node.idx with
    | some _ => .error ()
    | none => if chk then .ok (node, ctx, pm) else .ok (node.setIdx index, ctx, pm)
  | tok :: rest, index, pm, ctx, chk, node =>
    match patternOf tok rest with
    | some (name, constr) =>
      match (if name ≠ [] ∧ constr.isSome
             then validateConstraint (constr.getD LABEL_REG_EXP_STR)
             else Except.ok (constr.getD LABEL_REG_EXP_STR)) with
      | .error e => .error e
      | .ok rx =>
        match childLookup node.children rx with
        | some child =>
          let pm2 := if chk = false ∧ name ≠ [] then pm ++ [(name, child.varIdx)] else pm
          match nodeInsert rest index pm2 ctx chk child with
          | .error e => .error e
          | .ok (child2, ctx2, pm3) =>
            .ok (node.setChildren (childUpdate node.children rx child2), ctx2, pm3)
        | none =>
          if childAnyP (fun k =>
              ¬(k = ONLY_WILDCARD_REG_EXP_STR ∨ k = TAIL_WILDCARD_REG_EXP_STR)) node.children then
            .error ()
          else if chk then .ok (node, ctx, pm)
          else
            let child0 : RNode := if name ≠ [] then .mk none (some ctx) .nil else .mk none none .nil
            let ctx1 := if name ≠ [] then ctx + 1 else ctx
            let pm2 := if name ≠ [] then pm ++ [(name, some ctx)] else pm
            match nodeInsert rest index pm2 ctx1 chk child0 with
            | .error e => .error e
            | .ok (child2, ctx2, pm3) =>
              .ok (node.setChildren (childUpdate node.children rx child2), ctx2, pm3)
    | none =>
      match childLookup node.children tok with
      | some child =>
        match nodeInsert rest index pm ctx chk child with
        | .error e => .error e
        | .ok (child2, ctx2, pm3) =>
          .ok (node.setChildren (childUpdate node.children tok child2), ctx2, pm3)
      | none =>
        if childAnyP (fun k =>
            1 < k.length ∧ ¬(k = ONLY_WILDCARD_REG_EXP_STR ∨ k = TAIL_WILDCARD_REG_EXP_STR))
            node.children then
          .error ()
        else if chk then .ok (node, ctx, pm)
        else
          match nodeInsert rest index pm ctx chk (.mk none none .nil) with
          | .error e => .error e
          | .ok (child2, ctx2, pm3) =>
            .ok (node.setChildren (childUpdate node.children tok child2), ctx2, pm3)

/-- The regex metacharacter set of reg-exp/node.ts (`regExpMetaChars`);
`has(k)` is true only for the single-character keys in the set. -/
def isMetaKey : Chars → Bool
  | [c] => c = '.' || c = '\\' || c = '+' || c = '*' || c = '[' || c = '^' ||
           c = ']' || c = '$' || c = '(' || c = ')'
  | _ => false

/-- Stable insertion of a rendered child into the sorted part list (JavaScript
`Array.prototype.sort` with `compareKey`, which is stable). -/
def insertSortedPart (p : Chars × Chars) : List (Chars × Chars) → List (Chars × Chars)
  | [] => [p]
  | q :: qs => if compareKey p.1 q.1 > 0 then q :: insertSortedPart p qs else p :: q :: qs

/-- Stable sort of the rendered children by `compareKey` on their keys. -/
def sortParts : List (Chars × Chars) → List (Chars × Chars)
  | [] => []
  | p :: ps => insertSortedPart p (sortParts ps)

/-- Join the alternatives as `buildRegExpStr` does: nothing, the single
alternative, or a `(?:...|...)` group. -/
def joinAlt (parts : List Chars) : Chars :=
  match parts with
  | [] => []
  | [p] => p
  | p :: ps => cs "(?:" ++ p ++ (ps.map (fun q => '|' :: q)).flatten ++ [')']

/-- The key rendering of `buildRegExpStr`: a capture-variable child is emitted
as `(key)@varIndex`, a metacharacter key is escaped, anything else is
verbatim. -/
def emitKey (k : Chars) (c : RNode) : Chars :=
  match c.varIdx with
  | some v => '(' :: (k ++ [')', '@'] ++ natDec v)
  | none => if isMetaKey k then '\\' :: k else k

mutual
/-- The model of `Node.buildRegExpStr` (reg-exp/node.ts lines 129-152):
children are rendered in `compareKey` order, a terminal node contributes the
`#index` marker first, and multiple alternatives are grouped. -/
def buildRegExpStr (n : RNode) : Chars :=
  match n with
  | .mk idx _ children =>
    let parts := (sortParts (buildParts children)).map (fun p => p.2)
    joinAlt (match idx with
             | some i => ('#' :: natDec i) :: parts
             | none => parts)

/-- Render each child (in stored order) as its emitted key followed by its
subtree expression, keyed for the stable sort. -/
def buildParts : RChildren → List (Chars × Chars)
  | .nil => []
  | .cons k c r => (k, emitKey k c ++ buildRegExpStr c) :: buildParts r
end

/-- The `Trie` wrapper state of reg-exp/node.ts: the root node and the shared
`context.varIndex` counter. -/
structure RTrie where
  root : RNode
  varIndex : Nat

/-- A fresh `new Trie()`. -/
def trieEmpty : RTrie := ⟨emptyRNode, 0⟩

/-- The model of `Trie.insert` (reg-exp/node.ts lines 159-196): tokenize the
path with the brace-placeholder pass and insert the tokens at the root. -/
def trieInsert (path : Chars) (index : Nat) (chk : Bool) (t : RTrie) :
    Except Unit (RTrie × PMap) :=
  match nodeInsert (trieTokens path) index [] t.varIndex chk t.root with
  | .error e => .error e
  | .ok (root2, ctx2, pm) => .ok (⟨root2, ctx2⟩, pm)

/-! ## trie-tree/index.ts: path splitting and optional parameters -/

/-- Full `path.split(sep)` (empty pieces kept). -/
def splitAll (sep : Char) : Chars → List Chars
  | [] => [[]]
  | c :: rest =>
    if c = sep then [] :: splitAll sep rest
    else
      match splitAll sep rest with
      | s :: ss => (c :: s) :: ss
      | [] => [[c]]

/-- `splitPath` of trie-tree/index.ts: split on `/` and drop a leading empty
segment. -/
def splitPath (p : Chars) : List Chars :=
  match splitAll '/' p with
  | [] :: rest => rest
  | ps => ps

/-- One scan of `path.replace(/\{[^}]+\}/g, ...)` as used by
`extractGroupsFromPath`: the mark is `@` followed by the offset of the match
in the original string (the callback's `index` argument). -/
def extractCore (pos : Nat) (mode : Option (Nat × Chars)) : Chars → Chars × List (Chars × Chars)
  | [] =>
    match mode with
    | some (_, b) => ('\x7b' :: b.reverse, [])
    | none => ([], [])
  | c :: rest =>
    match mode with
    | some (p, b) =>
      if c = '\x7d' then
        if b = [] then
          let (out, gs) := extractCore (pos + 1) none rest
          ('\x7b' :: '\x7d' :: out, gs)
        else
          let mark : Chars := '@' :: natDec p
          let orig : Chars := '\x7b' :: (b.reverse ++ ['\x7d'])
          let (out, gs) := extractCore (pos + 1) none rest
          (mark ++ out, (mark, orig) :: gs)
      else extractCore (pos + 1) (some (p, c :: b)) rest
    | none =>
      if c = '\x7b' then extractCore (pos + 1) (some (pos, [])) rest
      else
        let (out, gs) := extractCore (pos + 1) none rest
        (c :: out, gs)

/-- `extractGroupsFromPath` of trie-tree/index.ts. -/
def extractGroupsFromPath (p : Chars) : Chars × List (Chars × Chars) :=
  extractCore 0 none p

/-- `replaceGroupMarks` of trie-tree/index.ts: for each group from the last
to the first, restore it into the last segment containing its mark. -/
def replaceGroupMarks (paths : List Chars) (groups : List (Chars × Chars)) : List Chars :=
  groups.foldr (fun g acc => replaceLastTok g.1 g.2 acc) paths

/-- `splitRoutingPath` of trie-tree/index.ts. -/
def splitRoutingPath (p : Chars) : List Chars :=
  let (p2, groups) := extractGroupsFromPath p
  replaceGroupMarks (splitPath p2) groups

/-- Character membership as a Boolean, the model of the regex tests
`/\:/.test(segment)` and `/\?/.test(segment)` and of `path.includes(':')`. -/
def hasChar (c : Char) : Chars → Bool
  | [] => false
  | x :: xs => x = c || hasChar c xs

/-- Remove the first occurrence of a character: `segment.replace('?', '')`. -/
def removeFirstChar (c : Char) : Chars → Chars
  | [] => []
  | x :: xs => if x = c then xs else x :: removeFirstChar c xs

/-- `results.filter((v, i, a) => a.indexOf(v) === i)`: keep first
occurrences. -/
def dedupFirst : List Chars → List Chars :=
  go []
where
  /-- Auxiliary traversal carrying the already-kept values. -/
  go (seen : List Chars) : List Chars → List Chars
    | [] => []
    | x :: xs => if x ∈ seen then go seen xs else x :: go (seen ++ [x]) xs

/-- One `segments.forEach` step of `checkOptionalParameter`, acting on the
`(results, basePath)` state. -/
def optStep (st : List Chars × Chars) (segment : Chars) : List Chars × Chars :=
  let (results, basePath) := st
  if segment ≠ [] ∧ ¬ hasChar ':' segment then (results, basePath ++ '/' :: segment)
  else if hasChar ':' segment then
    if hasChar '?' segment then
      let results2 :=
        if results = [] ∧ basePath = [] then results ++ [['/']] else results ++ [basePath]
      let optionalSegment := removeFirstChar '?' segment
      let basePath2 := basePath ++ '/' :: optionalSegment
      (results2 ++ [basePath2], basePath2)
    else (results, basePath ++ '/' :: segment)
  else (results, basePath)

/-- `checkOptionalParameter` of trie-tree/index.ts (lines 107-142): `none`
unless the template's last character is `?` and it contains `:`; otherwise
the deduplicated expansion accumulated segment by segment. -/
def checkOptionalParameter (path : Chars) : Option (List Chars) :=
  if path.getLast? = some '?' ∧ hasChar ':' path then
    some (dedupFirst ((splitAll '/' path).foldl optStep ([], [])).1)
  else none

/-! ## Spec-modelled components

The SmartRouter (adaptive selector) and the prefix-tree matcher's node
(`trie-tree`'s `Node` with `search`) are referenced from `src/` but their
implementation files are not present; they are modelled from the
specification. -/

/-- Modelled from the spec: a Prefix-Tree Matcher node (spec section 4.2;
the `Node` class imported by trie-tree/index.ts is absent from src/).
Children are keyed by literal segment text, plus up to one parameter child
and one wildcard child; each node stores the list of handlers that terminate
there, in registration order. -/
inductive TTNode (H : Type) where
  | mk (handlers : List H) (children : List (Chars × TTNode H))
       (par : Option (Chars × TTNode H)) (wild : Option (TTNode H))

/-- An empty prefix-tree node. -/
def ttEmpty {H : Type} : TTNode H := .mk [] [] none none

/-- Handlers stored on a prefix-tree node. -/
def TTNode.hs {H : Type} : TTNode H → List H
  | .mk h _ _ _ => h

/-- Update an association list in place, appending when absent. -/
def assocUpdate {A : Type} [DecidableEq Chars] : List (Chars × A) → Chars → A → List (Chars × A)
  | [], k, v => [(k, v)]
  | (k2, v2) :: r, k, v =>
    if k2 = k then (k2, v) :: r else (k2, v2) :: assocUpdate r k v

/-- Lookup in an association list. -/
def assocFind {A : Type} : List (Chars × A) → Chars → Option A
  | [], _ => none
  | (k2, v) :: r, k => if k2 = k then some v else assocFind r k

/-- Modelled from the spec: prefix-tree insertion (spec section 4.2) —
descend the segments, routing `*` to the wildcard child, `:name` to the
parameter child and anything else to the literal child, and append the
handler at the terminal node. -/
def ttAdd {H : Type} : TTNode H → List Chars → H → TTNode H
  | .mk hs ch par wild, [], h => .mk (hs ++ [h]) ch par wild
  | .mk hs ch par wild, s :: rest, h =>
    if s = cs "*" then
      .mk hs ch par (some (ttAdd (wild.getD ttEmpty) rest h))
    else if s.head? = some ':' then
      match par with
      | some (name, c) => .mk hs ch (some (name, ttAdd c rest h)) wild
      | none => .mk hs ch (some (s.drop 1, ttAdd ttEmpty rest h)) wild
    else
      .mk hs (assocUpdate ch s (ttAdd ((assocFind ch s).getD ttEmpty) rest h)) par wild

/-- Modelled from the spec: prefix-tree search (spec section 4.2) — at each
level try the literal child first, then the parameter child, then the
wildcard child (which consumes the remainder and also matches an empty
remainder), accumulating the handlers of every matching terminal. -/
def ttSearch {H : Type} : TTNode H → List Chars → List H
  | n, [] =>
    n.hs ++ (match n with | .mk _ _ _ (some w) => w.hs | _ => [])
  | .mk _ ch par wild, s :: rest =>
    (match assocFind ch s with
     | some c => ttSearch c rest
     | none => []) ++
    (match par with
     | some (_, c) => if s ≠ [] then ttSearch c rest else []
     | none => []) ++
    (match wild with
     | some w => w.hs
     | none => [])

/-- Modelled from the spec: the TrieRouter surface — per-method roots;
`add` expands nothing here (claims about optional parameters are settled on
`checkOptionalParameter` itself) and `match` walks the split path. -/
structure TrieRouterS (H : Type) where
  roots : List (Chars × TTNode H)

/-- Modelled from the spec: `TrieRouter.add`. -/
def ttRouterAdd {H : Type} (r : TrieRouterS H) (m p : Chars) (h : H) : TrieRouterS H :=
  ⟨assocUpdate r.roots m (ttAdd ((assocFind r.roots m).getD ttEmpty) (splitPath p) h)⟩

/-- Modelled from the spec: `TrieRouter.match` for a concrete method (the
ALL-method merge is not needed by the claims settled here). -/
def ttRouterMatch {H : Type} (r : TrieRouterS H) (m p : Chars) : List H :=
  match assocFind r.roots m with
  | some root => ttSearch root (splitPath p)
  | none => []

/-- Modelled from the spec: the Adaptive Selector state (spec section 4.3) —
the owned matchers in priority order (each a pure function from method and
path to a result or an ambiguity error) and the committed winner, if any. -/
structure SmartRouterS (R : Type) where
  routers : List (Chars → Chars → Except Unit R)
  committed : Option Nat

/-- Modelled from the spec: the trial loop of the Adaptive Selector's first
`match()` — try each matcher in priority order and return the index and
result of the first that succeeds. -/
def smartTrial {R : Type} (m p : Chars) : List (Chars → Chars → Except Unit R) → Nat → Option (Nat × R)
  | [], _ => none
  | f :: fs, i =>
    match f m p with
    | .ok r => some (i, r)
    | .error _ => smartTrial m p fs (i + 1)

/-- Modelled from the spec: `SmartRouter.match` — a committed selector
dispatches straight to its winner; an uncommitted one runs the trial loop
and commits to the first matcher that returns successfully, and propagates
the error when every matcher fails. -/
def smartMatch {R : Type} (s : SmartRouterS R) (m p : Chars) :
    Except Unit R × SmartRouterS R :=
  match s.committed with
  | some i =>
    match s.routers.get? i with
    | some f => (f m p, s)
    | none => (.error (), s)
  | none =>
    match smartTrial m p s.routers 0 with
    | some (i, r) => (.ok r, ⟨s.routers, some i⟩)
    | none => (.error (), s)

/-! ## Claim theorems: concrete route sets -/

/-- C1: registering `GET /entry/:id` and then `GET /:user/entries` raises the
path-ambiguity error (`PATH_ERROR`) already at the second insertion into the
compiled matcher's Pattern Node tree — the first insertion succeeds, the
second throws because the label key `[^/]+` would have to join the literal
sibling `e` at the same position — so matching `GET /entry/entries` can never
be served by the compiled matcher alone. -/
theorem claim1_conflicting_labels_raise_path_error :
    (trieInsert (cs "/entry/:id") 0 false trieEmpty >>=
      fun r => trieInsert (cs "/:user/entries") 1 false r.1) = .error () ∧
    (trieInsert (cs "/entry/:id") 0 false trieEmpty).isOk = true := by
  exact ⟨rfl, rfl⟩

/-- C2 counterexample: registering `GET /api/abc` and then `GET /api/*` does
not give the compiled matcher two handlers — the second insertion already
raises `PATH_ERROR` (the wildcard key may not join the existing non-wildcard
sibling `/`), so the compiled matcher never returns both handlers for this
registration order. -/
theorem claim2_counterexample_wildcard_after_literal_errors :
    (trieInsert (cs "/api/abc") 0 false trieEmpty >>=
      fun r => trieInsert (cs "/api/*") 1 false r.1) = .error () := by
  exact rfl

/-- C2 amended: for the registration order of the claim the compiled matcher
raises `PATH_ERROR` at insertion; in the opposite order both routes are
accepted and the serialized alternation places the literal `/abc` branch
before the wildcard branch (the `compareKey` ordering); the both-handlers
literal-before-wildcard result of the claim is delivered by the prefix-tree
fallback matcher (modelled from the spec), which returns exactly the two
registered handlers in that order. -/
theorem claim2_amended_literal_wildcard_ordering :
    (trieInsert (cs "/api/abc") 0 false trieEmpty >>=
      fun r => trieInsert (cs "/api/*") 1 false r.1) = .error () ∧
    (trieInsert (cs "/api/*") 0 false trieEmpty >>=
      fun r => trieInsert (cs "/api/abc") 1 false r.1).map
        (fun r => buildRegExpStr r.1.root) = .ok (cs "/api(?:/abc#1|(?:|/.*)#0)") ∧
    ttRouterMatch
      (ttRouterAdd (ttRouterAdd ⟨[]⟩ (cs "GET") (cs "/api/abc") 0)
        (cs "GET") (cs "/api/*") 1)
      (cs "GET") (cs "/api/abc") = [0, 1] := by
  exact ⟨rfl, rfl, rfl⟩

/-- C6: in `Node.insert`, a bare `*` token with no following tokens is
compiled to the only-wildcard class `.*`, a `*` token followed by further
tokens to the single-segment class `[^/]+`, and a `/*` token to the
tail-wildcard class `(?:|/.*)`; the corresponding child keys appear in the
tree after insertion. -/
theorem claim6_wildcard_token_classes :
    patternOf (cs "*") [] = some ([], some (cs ".*")) ∧
    (∀ t ts, patternOf (cs "*") (t :: ts) = some ([], some (cs "[^/]+"))) ∧
    (∀ rest, patternOf (cs "/*") rest = some ([], some (cs "(?:|/.*)"))) ∧
    (nodeInsert [cs "*"] 0 [] 0 false emptyRNode).map
      (fun r => childKeys r.1.children) = .ok [cs ".*"] ∧
    (nodeInsert [cs "*", cs "x"] 0 [] 0 false emptyRNode).map
      (fun r => childKeys r.1.children) = .ok [cs "[^/]+"] ∧
    (nodeInsert [cs "/*"] 0 [] 0 false emptyRNode).map
      (fun r => childKeys r.1.children) = .ok [cs "(?:|/.*)"] := by
  refine ⟨rfl, fun t ts => rfl, fun rest => rfl, rfl, rfl, rfl⟩

/-- C10: the brace-constraint validation of `Node.insert` — the body `.*`
raises the sentinel; the fully parenthesized alternation `(a|b)` is rewritten
to `(?:a|b)` and accepted; any constraint whose rewritten form still contains
a capturing `(` (one not followed by `?:`) raises the sentinel; and a route
carrying the `.*` constraint is rejected by the full insertion path. -/
theorem claim10_constraint_validation :
    validateConstraint (cs ".*") = .error () ∧
    validateConstraint (cs "(a|b)") = .ok (cs "(?:a|b)") ∧
    (∀ s, hasCapturingGroup (rewriteParen s) = true → validateConstraint s = .error ()) ∧
    trieInsert (cs "/:x\x7b.*\x7d") 0 false trieEmpty = .error () := by
  refine ⟨rfl, rfl, fun s h => ?_, rfl⟩
  unfold validateConstraint
  split
  · rfl
  · simp [h]

/-- C10 witness: the third part of the validation theorem applied to the
concrete constraint `(a)(b)`, which keeps a capturing group after the
rewrite. -/
theorem claim10_witness :
    hasCapturingGroup (rewriteParen (cs "(a)(b)")) = true ∧
    validateConstraint (cs "(a)(b)") = .error () :=
  ⟨rfl, claim10_constraint_validation.2.2.1 (cs "(a)(b)") rfl⟩

/-- C5 counterexample: `compareKey` is not antisymmetric on the pair of the
two wildcard keys — both orders return `1` — so it is not a valid total order
on all distinct keys drawn from the claim's classes. -/
theorem claim5_counterexample_wildcard_pair :
    compareKey (cs ".*") (cs "(?:|/.*)") = 1 ∧
    compareKey (cs "(?:|/.*)") (cs ".*") = 1 := by
  exact ⟨rfl, rfl⟩

/-- C4 counterexample: `checkOptionalParameter` applied to the template
`/:x??` (whose last character is `?` and which contains `:`) produces the
expansion `["/", "/:x?"]`, whose second template still ends in `?` and
contains `:` — a conditional template, not an unconditional one. -/
theorem claim4_counterexample_double_question :
    checkOptionalParameter (cs "/:x??") = some [cs "/", cs "/:x?"] ∧
    (cs "/:x?").getLast? = some '?' ∧ hasChar ':' (cs "/:x?") = true := by
  exact ⟨rfl, rfl, rfl⟩

/-- C9 counterexample: for the template `/a{b}/c`, whose brace group does not
follow a `:name` parameter, the placeholder mark `@\0` is split across
single-character tokens, the restore pass cannot find it in any one token,
and the concatenation of the tokens produced by `Trie.insert` is `/a@\0/c`,
not the original template. -/
theorem claim9_counterexample_bare_group :
    (trieTokens (cs "/a\x7bb\x7d/c")).flatten = cs "/a@\\0/c" ∧
    cs "/a@\\0/c" ≠ cs "/a\x7bb\x7d/c" := by
  exact ⟨rfl, by decide⟩

/-! ## Claim C3: the Adaptive Selector commits after its first success -/

/-- Trial-loop inventory: a successful trial returns the index (offset by the
start counter) of the first matcher that succeeded, together with its
result. -/
theorem smartTrial_spec {R : Type} (m p : Chars) :
    ∀ (fs : List (Chars → Chars → Except Unit R)) (j i : Nat) (r : R),
      smartTrial m p fs j = some (i, r) →
      j ≤ i ∧ ∃ f, fs.get? (i - j) = some f ∧ f m p = .ok r := by
  intro fs
  induction fs with
  | nil => intro j i r h; simp [smartTrial] at h
  | cons f fs ih =>
    intro j i r h
    unfold smartTrial at h
    cases hf : f m p with
    | ok r0 =>
      rw [hf] at h
      injection h with h2
      injection h2 with hji hr
      subst hji; subst hr
      exact ⟨le_refl _, f, by simp, hf⟩
    | error e =>
      rw [hf] at h
      obtain ⟨hle, g, hg, hgr⟩ := ih (j + 1) i r h
      refine ⟨by omega, g, ?_, hgr⟩
      have : i - j = (i - (j + 1)) + 1 := by omega
      rw [this]
      simpa using hg

/-- C3: once the Adaptive Selector's first successful `match()` has committed
to a matcher, every later `match()` with the same inputs is dispatched
directly to that committed matcher (no trial loop is entered — the committed
branch of `smartMatch` is taken) and returns the structurally identical
result with the state unchanged. -/
theorem claim3_selector_commit_idempotent {R : Type} (s : SmartRouterS R)
    (m p : Chars) (r : R) (s1 : SmartRouterS R)
    (h : smartMatch s m p = (.ok r, s1)) :
    ∃ i f, s1.committed = some i ∧ s1.routers.get? i = some f ∧ f m p = .ok r ∧
      smartMatch s1 m p = (.ok r, s1) := by
  unfold smartMatch at h
  cases hc : s.committed with
  | some i =>
    rw [hc] at h
    dsimp only at h
    cases hg : s.routers.get? i with
    | some f =>
      rw [hg] at h
      dsimp only at h
      obtain ⟨hr, hs⟩ := Prod.mk.injEq .. ▸ h
      subst hs
      have hg2 : s.routers[i]? = some f := by rw [← List.get?_eq_getElem?]; exact hg
      exact ⟨i, f, hc, hg, hr, by simp [smartMatch, hc, hg2, hr]⟩
    | none => rw [hg] at h; simp at h
  | none =>
    rw [hc] at h
    dsimp only at h
    cases ht : smartTrial m p s.routers 0 with
    | some ir =>
      rw [ht] at h
      obtain ⟨i0, r0⟩ := ir
      dsimp only at h
      obtain ⟨hr, hs⟩ := Prod.mk.injEq .. ▸ h
      injection hr with hr0
      subst hr0
      subst hs
      obtain ⟨-, f, hg, hfr⟩ := smartTrial_spec m p s.routers 0 i0 r0 ht
      simp only [Nat.sub_zero] at hg
      have hg2 : s.routers[i0]? = some f := by rw [← List.get?_eq_getElem?]; exact hg
      exact ⟨i0, f, rfl, hg, hfr, by simp [smartMatch, hg2, hfr]⟩
    | none => rw [ht] at h; simp at h

/-- C3 witness: the theorem applied to a concrete selector with a failing
first matcher and a succeeding second one; the first call commits to index 1
and the equalities follow. -/
theorem claim3_witness :
    ∃ i f,
      (⟨[fun _ _ => .error (), fun _ _ => .ok 7], some 1⟩ : SmartRouterS Nat).committed = some i ∧
      (⟨[fun _ _ => .error (), fun _ _ => .ok 7], some 1⟩ : SmartRouterS Nat).routers.get? i = some f ∧
      f (cs "GET") (cs "/x") = .ok 7 ∧
      smartMatch (⟨[fun _ _ => .error (), fun _ _ => .ok 7], some 1⟩ : SmartRouterS Nat)
        (cs "GET") (cs "/x") =
        (.ok 7, (⟨[fun _ _ => .error (), fun _ _ => .ok 7], some 1⟩ : SmartRouterS Nat)) :=
  claim3_selector_commit_idempotent
    (⟨[fun _ _ => .error (), fun _ _ => .ok 7], none⟩ : SmartRouterS Nat)
    (cs "GET") (cs "/x") 7
    (⟨[fun _ _ => .error (), fun _ _ => .ok 7], some 1⟩ : SmartRouterS Nat) rfl

/-! ## Claim C8: the dry-run probe mutates nothing -/

/-- Updating a key with the value it already holds leaves the child map
unchanged. -/
theorem childUpdate_self : ∀ (c : RChildren) (k : Chars) (v : RNode),
    childLookup c k = some v → childUpdate c k v = c
  | .nil, k, v, h => by simp [childLookup] at h
  | .cons k2 n r, k, v, h => by
    unfold childLookup at h
    unfold childUpdate
    by_cases hk : k2 = k
    · rw [if_pos hk] at h
      injection h with h
      rw [if_pos hk, h]
    · rw [if_neg hk] at h
      rw [if_neg hk, childUpdate_self r k v h]

/-- Restoring a node's own children is the identity. -/
theorem setChildren_children (n : RNode) : n.setChildren n.children = n := by
  cases n; rfl

/-- A dry-run `Node.insert` (pathErrorCheckOnly = true) either raises
`PATH_ERROR` or returns with the tree, the var-index counter and the
parameter map unchanged. -/
theorem nodeInsert_checkOnly (tokens : List Chars) :
    ∀ (i : Nat) (pm : PMap) (ctx : Nat) (n : RNode),
      nodeInsert tokens i pm ctx true n = .error () ∨
      nodeInsert tokens i pm ctx true n = .ok (n, ctx, pm) := by
  induction tokens with
  | nil =>
    intro i pm ctx n
    cases hn : n.idx with
    | some j => left; simp [nodeInsert, hn]
    | none => right; simp [nodeInsert, hn]
  | cons tok rest ih =>
    intro i pm ctx n
    unfold nodeInsert
    cases hp : patternOf tok rest with
    | some nc =>
      obtain ⟨name, constr⟩ := nc
      dsimp only
      cases hv : (if name ≠ [] ∧ constr.isSome
          then validateConstraint (constr.getD LABEL_REG_EXP_STR)
          else Except.ok (constr.getD LABEL_REG_EXP_STR)) with
      | error e => left; rfl
      | ok rx =>
        dsimp only
        cases hc : childLookup n.children rx with
        | some child =>
          dsimp only
          simp only [Bool.true_eq_false, false_and, if_false]
          rcases ih i pm ctx child with h | h
          · left; rw [h]
          · right; rw [h]
            dsimp only
            rw [childUpdate_self n.children rx child hc, setChildren_children]
        | none =>
          dsimp only
          split
          · left; rfl
          · right; rfl
    | none =>
      dsimp only
      cases hc : childLookup n.children tok with
      | some child =>
        dsimp only
        rcases ih i pm ctx child with h | h
        · left; rw [h]
        · right; rw [h]
          dsimp only
          rw [childUpdate_self n.children tok child hc, setChildren_children]
      | none =>
        dsimp only
        split
        · left; rfl
        · right; rfl

/-- C8: dry-run insertion leaves all shared state unchanged — at the node
level the tree, counter and parameter map are returned exactly as given (or
the sentinel is raised), and at the `Trie.insert` level the trie state is
unchanged and the returned parameter association list is empty. -/
theorem claim8_dry_run_pure :
    (∀ (tokens : List Chars) (i : Nat) (pm : PMap) (ctx : Nat) (n : RNode),
      nodeInsert tokens i pm ctx true n = .error () ∨
      nodeInsert tokens i pm ctx true n = .ok (n, ctx, pm)) ∧
    (∀ (path : Chars) (i : Nat) (t : RTrie),
      trieInsert path i true t = .error () ∨
      trieInsert path i true t = .ok (t, [])) := by
  refine ⟨fun tokens => nodeInsert_checkOnly tokens, fun path i t => ?_⟩
  unfold trieInsert
  rcases nodeInsert_checkOnly (trieTokens path) i [] t.varIndex t.root with h | h
  · left; rw [h]
  · right; rw [h]

/-! ## Claim C7: duplicate token sequences are rejected on second insertion -/

/-- Looking up a freshly updated key returns the stored node. -/
theorem childLookup_update : ∀ (c : RChildren) (k : Chars) (v : RNode),
    childLookup (childUpdate c k v) k = some v
  | .nil, k, v => by simp [childUpdate, childLookup]
  | .cons k2 n r, k, v => by
    unfold childUpdate
    by_cases hk : k2 = k
    · rw [if_pos hk]
      simp [childLookup, hk]
    · rw [if_neg hk]
      unfold childLookup
      rw [if_neg hk]
      exact childLookup_update r k v

/-- Projection of `setIdx`. -/
theorem idx_setIdx (n : RNode) (i : Nat) : (n.setIdx i).idx = some i := by
  cases n; rfl

/-- Projection of `setChildren`. -/
theorem children_setChildren (n : RNode) (c : RChildren) :
    (n.setChildren c).children = c := by
  cases n; rfl

/-- A real (non-dry-run) insertion of a token sequence makes a second real
insertion of the same sequence raise `PATH_ERROR`: the terminal node then
owns a handler index, and the second walk follows exactly the same child
keys. -/
theorem nodeInsert_dup (tokens : List Chars) :
    ∀ (i1 i2 : Nat) (pm1 pm2 : PMap) (c1 c2 : Nat) (n n2 : RNode) (ctx2 : Nat) (pm3 : PMap),
      nodeInsert tokens i1 pm1 c1 false n = .ok (n2, ctx2, pm3) →
      nodeInsert tokens i2 pm2 c2 false n2 = .error () := by
  induction tokens with
  | nil =>
    intro i1 i2 pm1 pm2 c1 c2 n n2 ctx2 pm3 h
    unfold nodeInsert at h ⊢
    cases hn : n.idx with
    | some j => rw [hn] at h; exact absurd h (by simp)
    | none =>
      rw [hn] at h
      dsimp only at h
      simp only [Bool.false_eq_true, if_false] at h
      obtain ⟨hn2, -, -⟩ := Prod.mk.injEq .. ▸ Except.ok.injEq .. ▸ h
      rw [← hn2, idx_setIdx]
  | cons tok rest ih =>
    intro i1 i2 pm1 pm2 c1 c2 n n2 ctx2 pm3 h
    unfold nodeInsert at h
    split at h
    next name constr hp =>
      split at h
      next e hv => exact absurd h (by simp)
      next rx hv =>
        split at h
        next child hc =>
          dsimp only at h
          split at h
          · exact absurd h (by simp)
          · rename_i child2 ctx2x pm3x hrec
            injection h with h2
            injection h2 with hn2 h3
            injection h3 with hctx hpm
            unfold nodeInsert
            rw [hp]
            dsimp only
            rw [hv]
            dsimp only
            rw [← hn2, children_setChildren, childLookup_update]
            dsimp only
            rw [ih i1 i2 _ _ c1 c2 child child2 ctx2x pm3x hrec]
        next hc =>
          split at h
          · exact absurd h (by simp)
          · split at h
            next hft => exact absurd hft (by simp)
            next hft =>
              dsimp only at h
              split at h
              · exact absurd h (by simp)
              · rename_i child2 ctx2x pm3x hrec
                injection h with h2
                injection h2 with hn2 h3
                injection h3 with hctx hpm
                unfold nodeInsert
                rw [hp]
                dsimp only
                rw [hv]
                dsimp only
                rw [← hn2, children_setChildren, childLookup_update]
                dsimp only
                rw [ih i1 i2 _ _ _ c2 _ child2 ctx2x pm3x hrec]
    next hp =>
      split at h
      next child hc =>
        split at h
        · exact absurd h (by simp)
        · rename_i child2 ctx2x pm3x hrec
          injection h with h2
          injection h2 with hn2 h3
          injection h3 with hctx hpm
          unfold nodeInsert
          rw [hp]
          dsimp only
          rw [← hn2, children_setChildren, childLookup_update]
          dsimp only
          rw [ih i1 i2 pm1 pm2 c1 c2 child child2 ctx2x pm3x hrec]
      next hc =>
        split at h
        · exact absurd h (by simp)
        · split at h
          next hft => exact absurd hft (by simp)
          next hft =>
            split at h
            · exact absurd h (by simp)
            · rename_i child2 ctx2x pm3x hrec
              injection h with h2
              injection h2 with hn2 h3
              injection h3 with hctx hpm
              unfold nodeInsert
              rw [hp]
              dsimp only
              rw [← hn2, children_setChildren, childLookup_update]
              dsimp only
              rw [ih i1 i2 pm1 pm2 c1 c2 _ child2 ctx2x pm3x hrec]

/-- C7: for every token sequence, a successful real insertion makes a second
real insertion of the identical sequence raise the path-ambiguity sentinel —
a terminal node owns at most one handler index, and the stored index is never
overwritten (the second insertion fails instead of returning an updated
tree). -/
theorem claim7_duplicate_insertion_errors (tokens : List Chars)
    (i1 i2 : Nat) (pm1 pm2 : PMap) (c1 c2 : Nat) (n n2 : RNode) (ctx2 : Nat) (pm3 : PMap)
    (h : nodeInsert tokens i1 pm1 c1 false n = .ok (n2, ctx2, pm3)) :
    nodeInsert tokens i2 pm2 c2 false n2 = .error () :=
  nodeInsert_dup tokens i1 i2 pm1 pm2 c1 c2 n n2 ctx2 pm3 h

/-- C7 witness: the duplicate-insertion theorem applied to the concrete token
sequence of `GET /x` — the first insertion succeeds and the theorem makes the
repeat insertion fail. -/
theorem claim7_witness :
    nodeInsert [cs "/", cs "x"] 5 [] 0 false emptyRNode =
      .ok (RNode.mk none none
        (.cons (cs "/") (RNode.mk none none
          (.cons (cs "x") (RNode.mk (some 5) none .nil) .nil)) .nil), 0, []) ∧
    nodeInsert [cs "/", cs "x"] 6 [] 0 false
      (RNode.mk none none
        (.cons (cs "/") (RNode.mk none none
          (.cons (cs "x") (RNode.mk (some 5) none .nil) .nil)) .nil)) = .error () :=
  ⟨rfl, claim7_duplicate_insertion_errors [cs "/", cs "x"] 5 6 [] [] 0 0 emptyRNode
    _ 0 [] rfl⟩

/-! ## Claim C5: the child-key comparator -/

/-- Asymmetry of the lexicographic comparison. -/
theorem lexLt_asymm : ∀ a b : Chars, lexLt a b = true → lexLt b a = false
  | [], [], h => by simp [lexLt] at h
  | [], _ :: _, _ => by simp [lexLt]
  | _ :: _, [], h => by simp [lexLt] at h
  | a :: as, b :: bs, h => by
    unfold lexLt at h ⊢
    by_cases hab : a = b
    · rw [if_pos hab] at h
      rw [if_pos hab.symm]
      exact lexLt_asymm as bs h
    · rw [if_neg hab] at h
      rw [if_neg (fun hba => hab hba.symm)]
      simp only [decide_eq_true_eq] at h
      simp only [decide_eq_false_iff_not]
      exact lt_asymm h

/-- Totality of the lexicographic comparison on distinct lists. -/
theorem lexLt_total : ∀ a b : Chars, a ≠ b → lexLt a b = true ∨ lexLt b a = true
  | [], [], h => absurd rfl h
  | [], _ :: _, _ => Or.inl (by simp [lexLt])
  | _ :: _, [], _ => Or.inr (by simp [lexLt])
  | a :: as, b :: bs, h => by
    unfold lexLt
    by_cases hab : a = b
    · rw [if_pos hab, if_pos hab.symm]
      refine lexLt_total as bs ?_
      intro he
      exact h (by rw [hab, he])
    · rw [if_neg hab, if_neg (fun hba => hab hba.symm)]
      rcases lt_trichotomy a b with hl | he | hg
      · left; simpa using hl
      · exact absurd he hab
      · right; simpa using hg

/-- A single-character key, the first class of the comparator. -/
def SingleKey (k : Chars) : Prop := k.length = 1

/-- A wildcard key, the last class of the comparator. -/
def WildKey (k : Chars) : Prop :=
  k = ONLY_WILDCARD_REG_EXP_STR ∨ k = TAIL_WILDCARD_REG_EXP_STR

/-- The generic label key `[^/]+`. -/
def LabelKey (k : Chars) : Prop := k = LABEL_REG_EXP_STR

/-- A multi-character literal or constrained key: longer than one character
and neither a wildcard nor the generic label. -/
def MultiKey (k : Chars) : Prop := 1 < k.length ∧ ¬ WildKey k ∧ ¬ LabelKey k

/-- The comparator negates under argument swap for every pair of distinct
keys that are not both wildcards. -/
theorem compareKey_antisym (a b : Chars) (hne : a ≠ b)
    (hw : ¬(WildKey a ∧ WildKey b)) : compareKey a b = -compareKey b a := by
  unfold compareKey
  unfold WildKey at hw
  by_cases h1 : a.length = 1 <;> by_cases h2 : b.length = 1
  · simp only [h1, h2, if_true, if_pos]
    rcases lexLt_total a b hne with hl | hl
    · rw [if_pos hl, if_neg (by rw [lexLt_asymm a b hl]; simp)]
      all_goals decide
    · rw [if_pos hl, if_neg (by rw [lexLt_asymm b a hl]; simp)]
      all_goals decide
  · simp only [h1, h2, if_true, if_false]
    all_goals decide
  · simp only [h1, h2, if_true, if_false]
    all_goals decide
  · simp only [h1, h2, if_false]
    by_cases h4 : a = ONLY_WILDCARD_REG_EXP_STR ∨ a = TAIL_WILDCARD_REG_EXP_STR <;>
      by_cases h5 : b = ONLY_WILDCARD_REG_EXP_STR ∨ b = TAIL_WILDCARD_REG_EXP_STR
    · exact absurd ⟨h4, h5⟩ hw
    · simp only [h4, h5, if_true, if_false]
      all_goals decide
    · simp only [h4, h5, if_true, if_false]
      all_goals decide
    · simp only [h4, h5, if_false]
      by_cases h6 : a = LABEL_REG_EXP_STR <;> by_cases h7 : b = LABEL_REG_EXP_STR
      · exact absurd (h6.trans h7.symm) hne
      · simp only [h6, h7, if_true, if_false]
        all_goals decide
      · simp only [h6, h7, if_true, if_false]
        all_goals decide
      · simp only [h6, h7, if_false]
        by_cases h8 : a.length = b.length
        · simp only [h8, if_true, if_pos rfl]
          rcases lexLt_total a b hne with hl | hl
          · rw [if_pos hl, if_neg (by rw [lexLt_asymm a b hl]; simp)]
            all_goals decide
          · rw [if_pos hl, if_neg (by rw [lexLt_asymm b a hl]; simp)]
            all_goals decide
        · rw [if_neg h8, if_neg (fun he => h8 he.symm)]
          omega

/-- C5 amended: the comparator realizes the claimed priority classes —
single-character keys first (lexicographic among themselves), then
multi-character keys (longer before shorter, lexicographic at equal length),
then the generic label `[^/]+`, then wildcards — and it is antisymmetric on
every pair of distinct keys except the two wildcard keys compared with each
other, where both orders return 1. -/
theorem claim5_amended_comparator_order :
    (∀ a b : Chars, SingleKey a → SingleKey b → a ≠ b →
      (compareKey a b = -1 ↔ lexLt a b = true)) ∧
    (∀ a b : Chars, SingleKey a → ¬ SingleKey b →
      compareKey a b = -1 ∧ compareKey b a = 1) ∧
    (∀ a b : Chars, MultiKey a → MultiKey b → a ≠ b →
      (compareKey a b < 0 ↔
        (b.length < a.length ∨ (a.length = b.length ∧ lexLt a b = true)))) ∧
    (∀ a b : Chars, MultiKey a → (LabelKey b ∨ WildKey b) →
      compareKey a b = -1 ∧ compareKey b a = 1) ∧
    (∀ b : Chars, WildKey b →
      compareKey LABEL_REG_EXP_STR b = -1 ∧ compareKey b LABEL_REG_EXP_STR = 1) ∧
    (∀ a b : Chars, a ≠ b → ¬(WildKey a ∧ WildKey b) →
      compareKey a b = -compareKey b a) := by
  refine ⟨?_, ?_, ?_, ?_, ?_, compareKey_antisym⟩
  · intro a b ha hb hne
    unfold SingleKey at ha hb
    unfold compareKey
    rw [if_pos ha, if_pos hb]
    cases hl : lexLt a b
    · simp
    · simp
  · intro a b ha hb
    unfold SingleKey at ha hb
    constructor
    · unfold compareKey
      rw [if_pos ha, if_neg hb]
    · unfold compareKey
      rw [if_neg hb, if_pos ha]
  · intro a b ha hb hne
    obtain ⟨hal, haw, hall⟩ := ha
    obtain ⟨hbl, hbw, hbll⟩ := hb
    unfold WildKey at haw hbw
    unfold LabelKey at hall hbll
    have ha1 : ¬ a.length = 1 := by omega
    have hb1 : ¬ b.length = 1 := by omega
    unfold compareKey
    rw [if_neg ha1, if_neg hb1, if_neg haw, if_neg hbw, if_neg hall, if_neg hbll]
    by_cases h8 : a.length = b.length
    · rw [if_pos h8]
      cases hl : lexLt a b
      · simp only [Bool.false_eq_true, if_false]
        refine iff_of_false (by omega) ?_
        rintro (hlen | ⟨-, hcon⟩)
        · omega
        · simp at hcon
      · simp only [eq_self_iff_true, if_true, and_true]
        exact iff_of_true (by omega) (Or.inr h8)
    · rw [if_neg h8]
      constructor
      · intro hlt
        left
        omega
      · rintro (hlen | ⟨hlen, -⟩)
        · omega
        · exact absurd hlen h8
  · intro a b ha hb
    obtain ⟨hal, haw, hall⟩ := ha
    unfold WildKey at haw
    unfold LabelKey at hall
    have ha1 : ¬ a.length = 1 := by omega
    rcases hb with hb | hb
    · unfold LabelKey at hb
      subst hb
      constructor
      · unfold compareKey
        rw [if_neg ha1, if_neg (by decide), if_neg haw,
          if_neg (by decide :
            ¬(LABEL_REG_EXP_STR = ONLY_WILDCARD_REG_EXP_STR ∨
              LABEL_REG_EXP_STR = TAIL_WILDCARD_REG_EXP_STR)),
          if_neg hall, if_pos rfl]
      · unfold compareKey
        rw [if_neg (by decide), if_neg ha1,
          if_neg (by decide :
            ¬(LABEL_REG_EXP_STR = ONLY_WILDCARD_REG_EXP_STR ∨
              LABEL_REG_EXP_STR = TAIL_WILDCARD_REG_EXP_STR)),
          if_neg haw, if_pos rfl]
    · unfold WildKey at hb
      rcases hb with hb | hb <;> subst hb <;> constructor
      · unfold compareKey
        rw [if_neg ha1, if_neg (by decide), if_neg haw, if_pos (Or.inl rfl)]
      · unfold compareKey
        rw [if_neg (by decide), if_neg ha1, if_pos (Or.inl rfl)]
      · unfold compareKey
        rw [if_neg ha1, if_neg (by decide), if_neg haw, if_pos (Or.inr rfl)]
      · unfold compareKey
        rw [if_neg (by decide), if_neg ha1, if_pos (Or.inr rfl)]
  · intro b hb
    unfold WildKey at hb
    rcases hb with hb | hb <;> subst hb <;> exact ⟨by decide, by decide⟩

/-- C5 witness: the amended comparator theorem applied to concrete keys —
the multi-character key `abc` sorts before the label key `[^/]+`. -/
theorem claim5_witness :
    compareKey (cs "abc") (cs "[^/]+") = -1 ∧ compareKey (cs "[^/]+") (cs "abc") = 1 :=
  claim5_amended_comparator_order.2.2.2.1 (cs "abc") (cs "[^/]+")
    ⟨by decide, by unfold WildKey; decide, by unfold LabelKey; decide⟩ (Or.inl rfl)

/-! ## Claim C4: optional-parameter expansion -/

/-- Character membership distributes over append. -/
theorem hasChar_append (c : Char) : ∀ a b : Chars,
    hasChar c (a ++ b) = (hasChar c a || hasChar c b)
  | [], b => by simp [hasChar]
  | x :: xs, b => by
    simp only [List.cons_append, hasChar]
    rw [show xs.append b = xs ++ b from rfl, hasChar_append c xs b, Bool.or_assoc]

/-- Members of the deduplicated list are members of the original list. -/
theorem dedupFirst_go_sub : ∀ (seen l : List Chars) (x : Chars),
    x ∈ dedupFirst.go seen l → x ∈ l
  | _, [], x, h => by simp [dedupFirst.go] at h
  | seen, y :: ys, x, h => by
    unfold dedupFirst.go at h
    by_cases hy : y ∈ seen
    · rw [if_pos hy] at h
      exact List.mem_cons_of_mem y (dedupFirst_go_sub seen ys x h)
    · rw [if_neg hy] at h
      rcases List.mem_cons.mp h with he | hm
      · exact he ▸ List.mem_cons_self x ys
      · exact List.mem_cons_of_mem y (dedupFirst_go_sub (seen ++ [y]) ys x hm)

/-- One accumulation step of `checkOptionalParameter` keeps both the
collected templates and the running base path free of `?`, provided every
`?` in the segment sits in a `:`-segment and vanishes after the single
removal. -/
theorem optStep_noQ (results : List Chars) (basePath : Chars) (s : Chars)
    (hwf : hasChar '?' s = true →
      (hasChar ':' s = true ∧ hasChar '?' (removeFirstChar '?' s) = false))
    (hres : ∀ r ∈ results, hasChar '?' r = false)
    (hbase : hasChar '?' basePath = false) :
    (∀ r ∈ (optStep (results, basePath) s).1, hasChar '?' r = false) ∧
    hasChar '?' (optStep (results, basePath) s).2 = false := by
  unfold optStep
  dsimp only
  by_cases h1 : s ≠ [] ∧ ¬ hasChar ':' s = true
  · rw [if_pos h1]
    refine ⟨hres, ?_⟩
    have hsq : hasChar '?' s = false := by
      cases hq : hasChar '?' s
      · rfl
      · exact absurd (hwf hq).1 h1.2
    rw [hasChar_append]
    simp [hasChar, hbase, hsq]
  · rw [if_neg h1]
    by_cases h2 : hasChar ':' s = true
    · rw [if_pos h2]
      by_cases h3 : hasChar '?' s = true
      · rw [if_pos h3]
        dsimp only
        obtain ⟨-, hrem⟩ := hwf h3
        have hb2 : hasChar '?' (basePath ++ '/' :: removeFirstChar '?' s) = false := by
          rw [hasChar_append]
          simp [hasChar, hbase, hrem]
        refine ⟨?_, hb2⟩
        intro r hr
        rcases List.mem_append.mp hr with hm | hm
        · split at hm
          · rcases List.mem_append.mp hm with hm2 | hm2
            · exact hres r hm2
            · rw [List.mem_singleton.mp hm2]; rfl
          · rcases List.mem_append.mp hm with hm2 | hm2
            · exact hres r hm2
            · rw [List.mem_singleton.mp hm2]; exact hbase
        · rw [List.mem_singleton.mp hm]; exact hb2
      · rw [if_neg h3]
        refine ⟨hres, ?_⟩
        have hsq : hasChar '?' s = false := by
          cases hq : hasChar '?' s
          · rfl
          · exact absurd hq h3
        rw [hasChar_append]
        simp [hasChar, hbase, hsq]
    · rw [if_neg h2]
      exact ⟨hres, hbase⟩

/-- The whole accumulation of `checkOptionalParameter` keeps every collected
template free of `?` under the per-segment condition of `optStep_noQ`. -/
theorem optFold_noQ : ∀ (segs : List Chars) (st : List Chars × Chars),
    (∀ s ∈ segs, hasChar '?' s = true →
      (hasChar ':' s = true ∧ hasChar '?' (removeFirstChar '?' s) = false)) →
    (∀ r ∈ st.1, hasChar '?' r = false) → hasChar '?' st.2 = false →
    ∀ r ∈ (segs.foldl optStep st).1, hasChar '?' r = false := by
  intro segs
  induction segs with
  | nil =>
    intro st _ hres _ r hr
    simp only [List.foldl_nil] at hr
    exact hres r hr
  | cons s rest ih =>
    intro st hwf hres hbase
    obtain ⟨results, basePath⟩ := st
    rw [List.foldl_cons]
    obtain ⟨hA, hB⟩ := optStep_noQ results basePath s (hwf s (by simp)) hres hbase
    exact ih (optStep (results, basePath) s)
      (fun t ht h => hwf t (List.mem_cons_of_mem s ht) h) hA hB

/-- C4 amended: `checkOptionalParameter` returns `null` exactly when the
template does not end in `?` or has no `:`; when it does expand a template in
which every `?` occurs inside a `:`-segment and disappears after the single
character removal, every produced template is unconditional (free of `?`);
and the two cited examples expand exactly as claimed. -/
theorem claim4_amended_optional_expansion :
    (∀ p : Chars, checkOptionalParameter p = none ↔
      ¬(p.getLast? = some '?' ∧ hasChar ':' p = true)) ∧
    (∀ (p : Chars) (rs : List Chars),
      (∀ s ∈ splitAll '/' p, hasChar '?' s = true →
        (hasChar ':' s = true ∧ hasChar '?' (removeFirstChar '?' s) = false)) →
      checkOptionalParameter p = some rs → ∀ r ∈ rs, hasChar '?' r = false) ∧
    checkOptionalParameter (cs "/api/animals/:type?") =
      some [cs "/api/animals", cs "/api/animals/:type"] ∧
    checkOptionalParameter (cs "/:type?") = some [cs "/", cs "/:type"] := by
  refine ⟨?_, ?_, rfl, rfl⟩
  · intro p
    unfold checkOptionalParameter
    by_cases hcond : p.getLast? = some '?' ∧ hasChar ':' p = true
    · rw [if_pos hcond]
      exact iff_of_false (by simp) (fun hn => hn hcond)
    · rw [if_neg hcond]
      exact iff_of_true rfl hcond
  · intro p rs hwf hres r hr
    unfold checkOptionalParameter at hres
    split at hres
    · injection hres with hres
      rw [← hres] at hr
      unfold dedupFirst at hr
      exact optFold_noQ (splitAll '/' p) ([], []) hwf (by simp) rfl r
        (dedupFirst_go_sub [] _ r hr)
    · exact absurd hres (by simp)

/-- C4 witness: the amended theorem's expansion part applied to the template
`/api/animals/:type?`, whose expansion contains no `?`. -/
theorem claim4_witness :
    ∀ r ∈ [cs "/api/animals", cs "/api/animals/:type"], hasChar '?' r = false :=
  claim4_amended_optional_expansion.2.1 (cs "/api/animals/:type?")
    [cs "/api/animals", cs "/api/animals/:type"] (by decide) rfl

/-! ## Claim C9: the placeholder/restore round trip

The counterexample above shows the round trip fails when a brace group does
not follow a `:name` parameter.  The amended claim restricts templates to
`/`-separated segments that are either plain literals or `:name` /
`:name{constraint}` parameters over ordinary characters; the following
grammar generates exactly those templates. -/

/-- An abstract template segment: a literal or a (possibly constrained)
named parameter. -/
inductive PSeg where
  | lit (s : Chars)
  | par (name : Chars) (constr : Option Chars)

/-- Ordinary characters for literal segments and parameter names: no braces,
no `@` or backslash (the mark alphabet), no `/` or `:` (token structure), no
`*` (wildcard forms) and no line terminators. -/
def plainLitChar (c : Char) : Bool :=
  !(c = '\x7b' || c = '\x7d' || c = '@' || c = '\\' || c = '/' || c = ':' ||
    c = '*' || isLineTerm c)

/-- Ordinary characters for constraint bodies: `/` and `:` are allowed (the
point of the placeholder pass), braces, the mark alphabet, `$` (a JavaScript
replacement pattern head) and line terminators are not. -/
def plainConstrChar (c : Char) : Bool :=
  !(c = '\x7b' || c = '\x7d' || c = '@' || c = '\\' || c = '$' || c = '*' || isLineTerm c)

/-- Well-formedness of a segment. -/
def wfSeg : PSeg → Prop
  | .lit s => s.all plainLitChar = true
  | .par name constr =>
    name ≠ [] ∧ name.all plainLitChar = true ∧
    (match constr with
     | none => True
     | some c => c ≠ [] ∧ c.all plainConstrChar = true)

/-- Render a segment back to template text. -/
def renderSeg : PSeg → Chars
  | .lit s => s
  | .par name constr =>
    ':' :: (name ++ (match constr with
                     | none => []
                     | some c => '\x7b' :: (c ++ ['\x7d'])))

/-- Render a whole template (a leading `/` before every segment). -/
def renderTmpl (segs : List PSeg) : Chars :=
  (segs.map (fun s => '/' :: renderSeg s)).flatten

/-- The mark `@\i` used by `Trie.insert`. -/
def markOfT (i : Nat) : Chars := '@' :: '\\' :: natDec i

/-- The mark `@p` (offset-based) used by `extractGroupsFromPath`. -/
def markOfS (p : Nat) : Chars := '@' :: natDec p

/-- How many brace groups a segment contributes. -/
def gCount : PSeg → Nat
  | .par _ (some _) => 1
  | _ => 0

/-! ### Decimal-digit facts -/

/-- Fuel irrelevance of the decimal-digit accumulator. -/
theorem natDecCore_acc (n : Nat) : ∀ (fuel : Nat) (acc : Chars), n < fuel →
    natDecCore fuel n acc = natDecCore (n + 1) n [] ++ acc := by
  induction n using Nat.strong_induction_on with
  | _ n ih =>
    intro fuel acc hf
    match fuel, hf with
    | fuel + 1, hf =>
      by_cases h10 : n < 10
      · have h1 : natDecCore (fuel + 1) n acc = Char.ofNat (48 + n % 10) :: acc := by
          unfold natDecCore
          rw [if_pos h10]
        have h2 : natDecCore (n + 1) n [] = [Char.ofNat (48 + n % 10)] := by
          unfold natDecCore
          rw [if_pos h10]
        rw [h1, h2]
        rfl
      · have hdiv : n / 10 < n := Nat.div_lt_self (by omega) (by omega)
        have h1 : natDecCore (fuel + 1) n acc =
            natDecCore fuel (n / 10) (Char.ofNat (48 + n % 10) :: acc) := by
          conv_lhs => unfold natDecCore
          rw [if_neg h10]
        have h2 : natDecCore (n + 1) n [] =
            natDecCore n (n / 10) [Char.ofNat (48 + n % 10)] := by
          conv_lhs => unfold natDecCore
          rw [if_neg h10]
        rw [h1, h2, ih (n / 10) hdiv fuel _ (by omega), ih (n / 10) hdiv n _ (by omega),
          List.append_assoc]
        rfl

/-- Unfolding equation for the decimal representation. -/
theorem natDec_unfold (n : Nat) :
    natDec n = if n < 10 then [Char.ofNat (48 + n % 10)]
               else natDec (n / 10) ++ [Char.ofNat (48 + n % 10)] := by
  by_cases h10 : n < 10
  · rw [if_pos h10]
    unfold natDec natDecCore
    rw [if_pos h10]
  · rw [if_neg h10]
    have h2 : natDec n = natDecCore n (n / 10) [Char.ofNat (48 + n % 10)] := by
      conv_lhs => unfold natDec natDecCore
      rw [if_neg h10]
    rw [h2, natDecCore_acc (n / 10) n _ (by omega)]
    rfl

/-- Every character of the decimal representation is a digit. -/
theorem natDec_digit (n : Nat) : ∀ c ∈ natDec n, c ∈ cs "0123456789" := by
  induction n using Nat.strong_induction_on with
  | _ n ih =>
    intro c hc
    rw [natDec_unfold] at hc
    by_cases h10 : n < 10
    · rw [if_pos h10] at hc
      rcases List.mem_singleton.mp hc with rfl
      have hm : n % 10 < 10 := by omega
      interval_cases h : n % 10 <;> decide
    · rw [if_neg h10] at hc
      rcases List.mem_append.mp hc with hm | hm
      · exact ih (n / 10) (Nat.div_lt_self (by omega) (by omega)) c hm
      · rcases List.mem_singleton.mp hm with rfl
        have hm : n % 10 < 10 := by omega
        interval_cases h : n % 10 <;> decide

/-- Absence of a character, element-wise. -/
theorem hasChar_eq_false_iff (c : Char) : ∀ l : Chars,
    (hasChar c l = false ↔ ∀ x ∈ l, x ≠ c)
  | [] => by simp [hasChar]
  | x :: xs => by
    unfold hasChar
    rw [Bool.or_eq_false_iff]
    constructor
    · rintro ⟨h1, h2⟩ y hy
      rcases List.mem_cons.mp hy with rfl | hm
      · simpa using h1
      · exact (hasChar_eq_false_iff c xs).mp h2 y hm
    · intro h
      refine ⟨by simpa using h x (List.mem_cons_self x xs), ?_⟩
      exact (hasChar_eq_false_iff c xs).mpr (fun y hy => h y (List.mem_cons_of_mem x hy))

/-- Digits are distinct from every non-digit character. -/
theorem natDec_ne (n : Nat) (ch : Char) (h : ch ∉ cs "0123456789") :
    ∀ c ∈ natDec n, c ≠ ch :=
  fun c hc he => h (he ▸ natDec_digit n c hc)

/-- Unpacking of the literal-character predicate. -/
theorem plainLit_spec (c : Char) (h : plainLitChar c = true) :
    c ≠ '\x7b' ∧ c ≠ '\x7d' ∧ c ≠ '@' ∧ c ≠ '\\' ∧ c ≠ '/' ∧ c ≠ ':' ∧
    c ≠ '*' ∧ isLineTerm c = false := by
  simp only [plainLitChar, Bool.not_eq_eq_eq_not, Bool.not_true, Bool.or_eq_false_iff,
    decide_eq_false_iff_not] at h
  tauto

/-- Unpacking of the constraint-character predicate. -/
theorem plainConstr_spec (c : Char) (h : plainConstrChar c = true) :
    c ≠ '\x7b' ∧ c ≠ '\x7d' ∧ c ≠ '@' ∧ c ≠ '\\' ∧ c ≠ '$' ∧ c ≠ '*' ∧
    isLineTerm c = false := by
  simp only [plainConstrChar, Bool.not_eq_eq_eq_not, Bool.not_true, Bool.or_eq_false_iff,
    decide_eq_false_iff_not] at h
  tauto

/-- A brace-free prefix passes through the replacement scan unchanged. -/
theorem passCore_app (i : Nat) : ∀ (s r : Chars), (∀ c ∈ s, c ≠ '\x7b') →
    passCore i none (s ++ r) =
      (s ++ (passCore i none r).1, (passCore i none r).2)
  | [], r, _ => by simp
  | c :: s', r, h => by
    rw [List.cons_append]
    have hc : ¬ c = '\x7b' := h c (List.mem_cons_self c s')
    conv_lhs => unfold passCore
    dsimp only
    rw [if_neg hc, passCore_app i s' r (fun x hx => h x (List.mem_cons_of_mem c hx))]
    rfl

/-- Scanning a `}`-free group body inside an open group emits the mark and
collects the original group text. -/
theorem passCore_group (r : Chars) : ∀ (body b : Chars) (i : Nat),
    (∀ c ∈ body, c ≠ '\x7d') → b.reverse ++ body ≠ [] →
    passCore i (some b) (body ++ '\x7d' :: r) =
      (markOfT i ++ (passCore (i + 1) none r).1,
       (markOfT i, '\x7b' :: ((b.reverse ++ body) ++ ['\x7d'])) ::
         (passCore (i + 1) none r).2)
  | [], b, i, _, hne => by
    have hb : ¬ b = [] := by
      intro hb
      exact hne (by simp [hb])
    rw [List.nil_append]
    conv_lhs => unfold passCore
    dsimp only
    rw [if_pos rfl, if_neg hb]
    simp [markOfT]
  | c :: body', b, i, hall, hne => by
    have hc : ¬ c = '\x7d' := hall c (List.mem_cons_self c body')
    rw [List.cons_append]
    conv_lhs => unfold passCore
    dsimp only
    rw [if_neg hc,
      passCore_group r body' (c :: b) i
        (fun x hx => hall x (List.mem_cons_of_mem c hx)) (by simp)]
    simp

/-- The marked rendering of one segment under the trie pass: a constrained
parameter's group is replaced by its mark. -/
def mSegT (i : Nat) : PSeg → Chars
  | .lit s => s
  | .par n none => ':' :: n
  | .par n (some _) => ':' :: (n ++ markOfT i)

/-- The marked rendering of a whole template under the trie pass. -/
def mRenderT : Nat → List PSeg → Chars
  | _, [] => []
  | i, s :: rest => '/' :: (mSegT i s ++ mRenderT (i + gCount s) rest)

/-- The group list collected by the trie pass. -/
def gListT : Nat → List PSeg → List (Chars × Chars)
  | _, [] => []
  | i, .par _ (some c) :: rest =>
    (markOfT i, '\x7b' :: (c ++ ['\x7d'])) :: gListT (i + 1) rest
  | i, .lit _ :: rest => gListT i rest
  | i, .par _ none :: rest => gListT i rest

/-- The tokens of one marked segment. -/
def tokOfMSeg (i : Nat) : PSeg → List Chars
  | .lit s => s.map (fun c => [c])
  | .par n none => [':' :: n]
  | .par n (some _) => [':' :: (n ++ markOfT i)]

/-- The tokens of a marked template. -/
def tokListT : Nat → List PSeg → List Chars
  | _, [] => []
  | i, s :: rest => ['/'] :: (tokOfMSeg i s ++ tokListT (i + gCount s) rest)

/-- The tokens of one fully restored segment. -/
def tokOrigSeg : PSeg → List Chars
  | .lit s => s.map (fun c => [c])
  | .par n co => [renderSeg (.par n co)]

/-- The tokens of a fully restored template. -/
def tokListOrig : List PSeg → List Chars
  | [] => []
  | s :: rest => ['/'] :: (tokOrigSeg s ++ tokListOrig rest)

/-- The characters of a trie mark. -/
theorem markOfT_chars (i : Nat) : ∀ c ∈ markOfT i,
    c = '@' ∨ c = '\\' ∨ c ∈ cs "0123456789" := by
  intro c hc
  rcases List.mem_cons.mp hc with rfl | hc2
  · exact Or.inl rfl
  rcases List.mem_cons.mp hc2 with rfl | hc3
  · exact Or.inr (Or.inl rfl)
  · exact Or.inr (Or.inr (natDec_digit i c hc3))

/-- The characters of a split-router mark. -/
theorem markOfS_chars (p : Nat) : ∀ c ∈ markOfS p,
    c = '@' ∨ c ∈ cs "0123456789" := by
  intro c hc
  rcases List.mem_cons.mp hc with rfl | hc2
  · exact Or.inl rfl
  · exact Or.inr (natDec_digit p c hc2)

/-- Characters of a marked segment: mark characters or ordinary characters
or the leading colon. -/
theorem mSegT_chars (i : Nat) (s : PSeg) (hs : wfSeg s) : ∀ c ∈ mSegT i s,
    c = ':' ∨ plainLitChar c = true ∨ c = '@' ∨ c = '\\' ∨ c ∈ cs "0123456789" := by
  intro c hc
  cases s with
  | lit s0 =>
    exact Or.inr (Or.inl (List.all_eq_true.mp hs c hc))
  | par n co =>
    obtain ⟨-, hn, -⟩ := hs
    cases co with
    | none =>
      rcases List.mem_cons.mp hc with rfl | hc2
      · exact Or.inl rfl
      · exact Or.inr (Or.inl (List.all_eq_true.mp hn c hc2))
    | some c0 =>
      rcases List.mem_cons.mp hc with rfl | hc2
      · exact Or.inl rfl
      rcases List.mem_append.mp hc2 with hm | hm
      · exact Or.inr (Or.inl (List.all_eq_true.mp hn c hm))
      · rcases markOfT_chars i c hm with h | h | h
        · exact Or.inr (Or.inr (Or.inl h))
        · exact Or.inr (Or.inr (Or.inr (Or.inl h)))
        · exact Or.inr (Or.inr (Or.inr (Or.inr h)))

/-- Characters of the marked template. -/
theorem mRenderT_chars : ∀ (segs : List PSeg) (i : Nat), (∀ s ∈ segs, wfSeg s) →
    ∀ c ∈ mRenderT i segs,
      c = '/' ∨ c = ':' ∨ plainLitChar c = true ∨ c = '@' ∨ c = '\\' ∨
        c ∈ cs "0123456789"
  | [], _, _ => by intro c hc; simp [mRenderT] at hc
  | s :: rest, i, h => by
    intro c hc
    unfold mRenderT at hc
    rcases List.mem_cons.mp hc with rfl | hc2
    · exact Or.inl rfl
    rcases List.mem_append.mp hc2 with hm | hm
    · rcases mSegT_chars i s (h s (List.mem_cons_self s rest)) c hm with h1 | h1
      · exact Or.inr (Or.inl h1)
      · exact Or.inr (Or.inr h1)
    · exact mRenderT_chars rest (i + gCount s)
        (fun t ht => h t (List.mem_cons_of_mem s ht)) c hm

/-- The marked template contains no opening brace. -/
theorem mRenderT_noBrace (segs : List PSeg) (i : Nat) (h : ∀ s ∈ segs, wfSeg s) :
    ∀ c ∈ mRenderT i segs, c ≠ '\x7b' := by
  intro c hc
  rcases mRenderT_chars segs i h c hc with rfl | rfl | h1 | rfl | rfl | h1
  · decide
  · decide
  · exact (plainLit_spec c h1).1
  · decide
  · decide
  · exact fun he => absurd (he ▸ h1) (by decide)

/-- The marked template contains no `*`. -/
theorem mRenderT_noStar (segs : List PSeg) (i : Nat) (h : ∀ s ∈ segs, wfSeg s) :
    ∀ c ∈ mRenderT i segs, c ≠ '*' := by
  intro c hc
  rcases mRenderT_chars segs i h c hc with rfl | rfl | h1 | rfl | rfl | h1
  · decide
  · decide
  · exact (plainLit_spec c h1).2.2.2.2.2.2.1
  · decide
  · decide
  · exact fun he => absurd (he ▸ h1) (by decide)

/-- Unfolding of the template rendering. -/
theorem renderTmpl_cons (s : PSeg) (rest : List PSeg) :
    renderTmpl (s :: rest) = ('/' :: renderSeg s) ++ renderTmpl rest := by
  simp [renderTmpl]

/-- The group-replacement scan maps a well-formed template to its marked
form and collects exactly the groups of its constrained parameters. -/
theorem passCore_render : ∀ (segs : List PSeg) (i : Nat), (∀ s ∈ segs, wfSeg s) →
    passCore i none (renderTmpl segs) = (mRenderT i segs, gListT i segs)
  | [], i, _ => by simp [renderTmpl, passCore, mRenderT, gListT]
  | .lit s0 :: rest, i, h => by
    have hw := h _ (List.mem_cons_self _ rest)
    have hrest : ∀ s ∈ rest, wfSeg s := fun t ht => h t (List.mem_cons_of_mem _ ht)
    rw [renderTmpl_cons]
    rw [passCore_app i ('/' :: renderSeg (.lit s0)) (renderTmpl rest) ?nb]
    case nb =>
      intro c hc
      rcases List.mem_cons.mp hc with rfl | hc2
      · decide
      · exact (plainLit_spec c (List.all_eq_true.mp hw c hc2)).1
    rw [passCore_render rest i hrest]
    simp [mRenderT, gListT, mSegT, renderSeg, gCount]
  | .par n none :: rest, i, h => by
    have hw := h _ (List.mem_cons_self _ rest)
    obtain ⟨-, hn, -⟩ := hw
    have hrest : ∀ s ∈ rest, wfSeg s := fun t ht => h t (List.mem_cons_of_mem _ ht)
    rw [renderTmpl_cons]
    rw [passCore_app i ('/' :: renderSeg (.par n none)) (renderTmpl rest) ?nb]
    case nb =>
      intro c hc
      rcases List.mem_cons.mp hc with rfl | hc2
      · decide
      · unfold renderSeg at hc2
        rcases List.mem_cons.mp hc2 with rfl | hc3
        · decide
        · rw [List.append_nil] at hc3
          exact (plainLit_spec c (List.all_eq_true.mp hn c hc3)).1
    rw [passCore_render rest i hrest]
    simp [mRenderT, gListT, mSegT, renderSeg, gCount]
  | .par n (some c0) :: rest, i, h => by
    have hw := h _ (List.mem_cons_self _ rest)
    obtain ⟨-, hn, hc0ne, hc0⟩ := hw
    have hrest : ∀ s ∈ rest, wfSeg s := fun t ht => h t (List.mem_cons_of_mem _ ht)
    rw [renderTmpl_cons]
    have hdec : ('/' :: renderSeg (.par n (some c0))) ++ renderTmpl rest =
        ('/' :: ':' :: n) ++ ('\x7b' :: (c0 ++ '\x7d' :: renderTmpl rest)) := by
      unfold renderSeg
      simp
    rw [hdec]
    rw [passCore_app i ('/' :: ':' :: n) _ ?nb]
    case nb =>
      intro c hc
      rcases List.mem_cons.mp hc with rfl | hc2
      · decide
      rcases List.mem_cons.mp hc2 with rfl | hc3
      · decide
      · exact (plainLit_spec c (List.all_eq_true.mp hn c hc3)).1
    have hbrace : passCore i none ('\x7b' :: (c0 ++ '\x7d' :: renderTmpl rest)) =
        passCore i (some []) (c0 ++ '\x7d' :: renderTmpl rest) := by
      conv_lhs => unfold passCore
      rw [if_pos rfl]
    rw [hbrace]
    rw [passCore_group (renderTmpl rest) c0 [] i
      (fun c hc => (plainConstr_spec c (List.all_eq_true.mp hc0 c hc)).2.1)
      (by simpa using hc0ne)]
    rw [passCore_render rest (i + 1) hrest]
    simp [mRenderT, gListT, mSegT, renderSeg, gCount, markOfT]

/-- A brace-free string passes the scan unchanged with no groups. -/
theorem passCore_nobrace (i : Nat) (s : Chars) (h : ∀ c ∈ s, c ≠ '\x7b') :
    passCore i none s = (s, []) := by
  have := passCore_app i s [] h
  rw [List.append_nil] at this
  rw [this]
  simp [passCore]

/-- A template with a collected group contains a closing brace. -/
theorem gListT_brace_mem : ∀ (segs : List PSeg) (i : Nat), gListT i segs ≠ [] →
    '\x7d' ∈ renderTmpl segs
  | [], i, h => absurd rfl h
  | .lit s0 :: rest, i, h => by
    rw [renderTmpl_cons]
    exact List.mem_append.mpr (Or.inr (gListT_brace_mem rest i h))
  | .par n none :: rest, i, h => by
    rw [renderTmpl_cons]
    exact List.mem_append.mpr (Or.inr (gListT_brace_mem rest i h))
  | .par n (some c0) :: rest, i, _ => by
    rw [renderTmpl_cons]
    refine List.mem_append.mpr (Or.inl ?_)
    refine List.mem_cons_of_mem _ ?_
    unfold renderSeg
    refine List.mem_cons_of_mem _ (List.mem_append.mpr (Or.inr ?_))
    exact List.mem_cons_of_mem _ (List.mem_append.mpr (Or.inr (by simp)))

/-- The full replacement loop of `Trie.insert` on a well-formed template:
one pass marks every group, the next pass finds nothing, and the loop
returns the marked template with all collected groups. -/
theorem braceLoop_render (segs : List PSeg) (h : ∀ s ∈ segs, wfSeg s) :
    braceLoop ((renderTmpl segs).count '\x7d' + 1) 0 (renderTmpl segs) [] =
      (mRenderT 0 segs, gListT 0 segs) := by
  cases hg : gListT 0 segs with
  | nil =>
    unfold braceLoop
    rw [passCore_render segs 0 h, hg]
    rfl
  | cons g gs =>
    have hmem : '\x7d' ∈ renderTmpl segs := gListT_brace_mem segs 0 (by rw [hg]; simp)
    have hcount : 0 < (renderTmpl segs).count '\x7d' := List.count_pos_iff.mpr hmem
    obtain ⟨k, hk⟩ : ∃ k, (renderTmpl segs).count '\x7d' = k + 1 :=
      ⟨(renderTmpl segs).count '\x7d' - 1, by omega⟩
    rw [hk]
    show braceLoop (k + 1 + 1) 0 (renderTmpl segs) [] = _
    unfold braceLoop
    rw [passCore_render segs 0 h, hg]
    dsimp only
    rw [if_neg (by simp)]
    unfold braceLoop
    rw [passCore_nobrace _ _ (mRenderT_noBrace segs 0 h)]
    simp

/-! ### Tokenizer shape on marked templates -/

/-- Plain literal characters tokenize one by one. -/
theorem tokCore_lits : ∀ (s r : Chars), (∀ c ∈ s, plainLitChar c = true) →
    tokCore none (s ++ r) = s.map (fun c => [c]) ++ tokCore none r
  | [], r, _ => by simp
  | c :: s', r, h => by
    obtain ⟨-, -, -, -, hns, hnc, -, hnl⟩ := plainLit_spec c (h c (List.mem_cons_self c s'))
    rw [List.cons_append]
    conv_lhs => unfold tokCore
    dsimp only
    rw [if_neg hnc, if_neg (by intro hand; exact hns hand.1), if_neg (by simp [hnl])]
    rw [tokCore_lits s' r (fun x hx => h x (List.mem_cons_of_mem c hx))]
    rfl

/-- A slash-free run inside a parameter buffer is consumed to the end of
input. -/
theorem tokCore_buf_end : ∀ (u b : Chars), (∀ c ∈ u, c ≠ '/') →
    tokCore (some b) u = [b.reverse ++ u]
  | [], b, _ => by simp [tokCore]
  | c :: u', b, h => by
    have hc : ¬ c = '/' := h c (List.mem_cons_self c u')
    conv_lhs => unfold tokCore
    dsimp only
    rw [if_neg hc, tokCore_buf_end u' (c :: b) (fun x hx => h x (List.mem_cons_of_mem c hx))]
    simp

/-- A slash-free run inside a parameter buffer is consumed up to a `/`. -/
theorem tokCore_buf_slash : ∀ (u b r2 : Chars), (∀ c ∈ u, c ≠ '/') → r2 ≠ ['*'] →
    tokCore (some b) (u ++ '/' :: r2) = (b.reverse ++ u) :: ['/'] :: tokCore none r2
  | [], b, r2, _, hr => by
    rw [List.nil_append]
    conv_lhs => unfold tokCore
    dsimp only
    rw [if_pos rfl, if_neg hr]
    simp
  | c :: u', b, r2, h, hr => by
    have hc : ¬ c = '/' := h c (List.mem_cons_self c u')
    rw [List.cons_append]
    conv_lhs => unfold tokCore
    dsimp only
    rw [if_neg hc,
      tokCore_buf_slash u' (c :: b) r2 (fun x hx => h x (List.mem_cons_of_mem c hx)) hr]
    simp

/-- Entering a parameter token: a nonempty slash-free run after `:` is
consumed to the end of input as one token. -/
theorem tokCore_colon_end (w : Chars) (hne : w ≠ []) (h : ∀ c ∈ w, c ≠ '/') :
    tokCore none (':' :: w) = [':' :: w] := by
  match w, hne with
  | c2 :: w', _ =>
    conv_lhs => unfold tokCore
    dsimp only
    rw [if_pos rfl]
    rw [if_neg (by exact h c2 (List.mem_cons_self c2 w'))]
    rw [tokCore_buf_end (c2 :: w') [':'] h]
    rfl

/-- Entering a parameter token: a nonempty slash-free run after `:` is
consumed up to a `/` as one token. -/
theorem tokCore_colon_slash (w r2 : Chars) (hne : w ≠ []) (h : ∀ c ∈ w, c ≠ '/')
    (hr : r2 ≠ ['*']) :
    tokCore none (':' :: (w ++ '/' :: r2)) = (':' :: w) :: ['/'] :: tokCore none r2 := by
  match w, hne with
  | c2 :: w', _ =>
    rw [List.cons_append]
    conv_lhs => unfold tokCore
    dsimp only
    rw [if_pos rfl]
    rw [if_neg (by exact h c2 (List.mem_cons_self c2 w'))]
    rw [show c2 :: (w' ++ '/' :: r2) = (c2 :: w') ++ '/' :: r2 from rfl]
    rw [tokCore_buf_slash (c2 :: w') [':'] r2 h hr]
    rfl

/-- A marked segment contains no `*`. -/
theorem mSegT_noStar (i : Nat) (s : PSeg) (hs : wfSeg s) : ∀ c ∈ mSegT i s, c ≠ '*' := by
  intro c hc
  rcases mSegT_chars i s hs c hc with rfl | h1 | rfl | rfl | h1
  · decide
  · exact (plainLit_spec c h1).2.2.2.2.2.2.1
  · decide
  · decide
  · exact fun he => absurd (he ▸ h1) (by decide)

/-- The body following a leading `/` in a marked template is never the
single token `*`. -/
theorem segTail_ne_star (i : Nat) (s : PSeg) (j : Nat) (rest : List PSeg)
    (hs : wfSeg s) (hr : ∀ t ∈ rest, wfSeg t) :
    mSegT i s ++ mRenderT j rest ≠ ['*'] := by
  intro he
  have hm : '*' ∈ mSegT i s ++ mRenderT j rest := by rw [he]; simp
  rcases List.mem_append.mp hm with hm2 | hm2
  · exact mSegT_noStar i s hs '*' hm2 rfl
  · exact mRenderT_noStar rest j hr '*' hm2 rfl

/-- A parameter token body (name plus optional mark) contains no `/`. -/
theorem parBody_noSlash (n m : Chars) (hn : n.all plainLitChar = true)
    (hm : ∀ c ∈ m, c = '@' ∨ c = '\\' ∨ c ∈ cs "0123456789") :
    ∀ c ∈ n ++ m, c ≠ '/' := by
  intro c hc
  rcases List.mem_append.mp hc with h1 | h1
  · exact (plainLit_spec c (List.all_eq_true.mp hn c h1)).2.2.2.2.1
  · rcases hm c h1 with rfl | rfl | h2
    · decide
    · decide
    · exact fun he => absurd (he ▸ h2) (by decide)

/-- A leading `/` becomes its own token when not followed by exactly `*`. -/
theorem tokCore_slash (R : Chars) (hR : R ≠ ['*']) :
    tokCore none ('/' :: R) = ['/'] :: tokCore none R := by
  conv_lhs => unfold tokCore
  dsimp only
  rw [if_neg (by decide), if_neg (by intro hand; exact hR hand.2), if_neg (by decide)]

/-- The token list of a marked well-formed template: a `/` token before each
segment, single-character tokens for literal segments and one token per
parameter segment. -/
theorem tokCore_mRenderT : ∀ (segs : List PSeg) (i : Nat), (∀ s ∈ segs, wfSeg s) →
    tokCore none (mRenderT i segs) = tokListT i segs
  | [], _, _ => rfl
  | .lit s0 :: rest, i, h => by
    have hw := h _ (List.mem_cons_self _ rest)
    have hrest : ∀ t ∈ rest, wfSeg t := fun t ht => h t (List.mem_cons_of_mem _ ht)
    unfold mRenderT
    rw [tokCore_slash _ (segTail_ne_star i (.lit s0) (i + gCount (.lit s0)) rest hw hrest)]
    unfold mSegT
    rw [tokCore_lits s0 _ (fun c hc => List.all_eq_true.mp hw c hc)]
    rw [tokCore_mRenderT rest _ hrest]
    rfl
  | .par n none :: rest, i, h => by
    have hw := h _ (List.mem_cons_self _ rest)
    obtain ⟨hne, hn, -⟩ := hw
    have hrest : ∀ t ∈ rest, wfSeg t := fun t ht => h t (List.mem_cons_of_mem _ ht)
    have hnos : ∀ c ∈ n, c ≠ '/' :=
      fun c hc => (plainLit_spec c (List.all_eq_true.mp hn c hc)).2.2.2.2.1
    cases rest with
    | nil =>
      have heq : mRenderT i [PSeg.par n none] = '/' :: ((':' :: n) ++ []) := by
        simp [mRenderT, mSegT]
      rw [heq, List.append_nil]
      rw [tokCore_slash _ (by intro he; injection he with h1; exact absurd h1 (by decide))]
      rw [tokCore_colon_end n hne hnos]
      rfl
    | cons s2 rest2 =>
      have hw2 : wfSeg s2 := hrest s2 (List.mem_cons_self s2 rest2)
      have hrest2 : ∀ t ∈ rest2, wfSeg t := fun t ht => hrest t (List.mem_cons_of_mem s2 ht)
      have heq : mRenderT i (PSeg.par n none :: s2 :: rest2) =
          '/' :: ((':' :: n) ++ mRenderT (i + gCount (.par n none)) (s2 :: rest2)) := rfl
      have htail : mRenderT (i + gCount (.par n none)) (s2 :: rest2) =
          '/' :: (mSegT (i + gCount (.par n none)) s2 ++
            mRenderT (i + gCount (.par n none) + gCount s2) rest2) := rfl
      have hstar := segTail_ne_star (i + gCount (.par n none)) s2
        (i + gCount (.par n none) + gCount s2) rest2 hw2 hrest2
      rw [heq]
      rw [tokCore_slash _ (by
        rw [htail]
        intro he
        injection he with h1
        exact absurd h1 (by decide))]
      rw [htail, List.cons_append]
      rw [tokCore_colon_slash n _ hne hnos hstar]
      have hIH := tokCore_mRenderT (s2 :: rest2) (i + gCount (.par n none)) hrest
      rw [htail, tokCore_slash _ hstar] at hIH
      rw [hIH]
      rfl
  | .par n (some c0) :: rest, i, h => by
    have hw := h _ (List.mem_cons_self _ rest)
    obtain ⟨hne, hn, -⟩ := hw
    have hrest : ∀ t ∈ rest, wfSeg t := fun t ht => h t (List.mem_cons_of_mem _ ht)
    have hnos : ∀ c ∈ n ++ markOfT i, c ≠ '/' :=
      parBody_noSlash n (markOfT i) hn (markOfT_chars i)
    have hne2 : n ++ markOfT i ≠ [] := by simp [hne]
    cases rest with
    | nil =>
      have heq : mRenderT i [PSeg.par n (some c0)] = '/' :: ((':' :: (n ++ markOfT i)) ++ []) := by
        simp [mRenderT, mSegT]
      rw [heq, List.append_nil]
      rw [tokCore_slash _ (by intro he; injection he with h1; exact absurd h1 (by decide))]
      rw [tokCore_colon_end _ hne2 hnos]
      rfl
    | cons s2 rest2 =>
      have hw2 : wfSeg s2 := hrest s2 (List.mem_cons_self s2 rest2)
      have hrest2 : ∀ t ∈ rest2, wfSeg t := fun t ht => hrest t (List.mem_cons_of_mem s2 ht)
      have heq : mRenderT i (PSeg.par n (some c0) :: s2 :: rest2) =
          '/' :: ((':' :: (n ++ markOfT i)) ++
            mRenderT (i + gCount (.par n (some c0))) (s2 :: rest2)) := rfl
      have htail : mRenderT (i + gCount (.par n (some c0))) (s2 :: rest2) =
          '/' :: (mSegT (i + gCount (.par n (some c0))) s2 ++
            mRenderT (i + gCount (.par n (some c0)) + gCount s2) rest2) := rfl
      have hstar := segTail_ne_star (i + gCount (.par n (some c0))) s2
        (i + gCount (.par n (some c0)) + gCount s2) rest2 hw2 hrest2
      rw [heq]
      rw [tokCore_slash _ (by
        rw [htail]
        intro he
        injection he with h1
        exact absurd h1 (by decide))]
      rw [htail, List.cons_append]
      rw [tokCore_colon_slash _ _ hne2 hnos hstar]
      have hIH := tokCore_mRenderT (s2 :: rest2) (i + gCount (.par n (some c0))) hrest
      rw [htail, tokCore_slash _ hstar] at hIH
      rw [hIH]
      rfl

/-! ### Restoring the marks -/

/-- Prefix reflexivity. -/
theorem isPrefixL_refl : ∀ l : Chars, isPrefixL l l = true
  | [] => rfl
  | c :: l => by simp [isPrefixL, isPrefixL_refl l]

/-- A list is a prefix of itself extended. -/
theorem isPrefixL_self_append : ∀ (l t : Chars), isPrefixL l (l ++ t) = true
  | [], _ => rfl
  | c :: l, t => by simp [isPrefixL, isPrefixL_self_append l t]

/-- A pattern occurs in any string that ends with it. -/
theorem containsSub_suffix : ∀ (pre pat : Chars), containsSub (pre ++ pat) pat = true
  | [], pat => by
    cases pat with
    | nil => rfl
    | cons c p => simp [containsSub, isPrefixL_refl]
  | c :: pre, pat => by
    rw [List.cons_append]
    unfold containsSub
    rw [containsSub_suffix pre pat]
    simp
  termination_by pre _ => pre.length

/-- A pattern starting with `@` cannot occur in an `@`-free string. -/
theorem containsSub_noAt : ∀ (t e : Chars), hasChar '@' t = false →
    containsSub t ('@' :: e) = false
  | [], _, _ => rfl
  | c :: t', e, h => by
    unfold hasChar at h
    rw [Bool.or_eq_false_iff] at h
    obtain ⟨h1, h2⟩ := h
    unfold containsSub
    rw [containsSub_noAt t' e h2]
    unfold isPrefixL
    simp only [Bool.or_false, Bool.and_eq_false_iff]
    left
    simp only [decide_eq_false_iff_not] at h1 ⊢
    exact fun he => h1 he.symm

/-- If the mark occurs in the tail token list, the restore step leaves any
prefix of tokens untouched. -/
theorem replLastAux_append (m o : Chars) : ∀ (ts1 ts2 r2 : List Chars),
    replLastAux m o ts2 = some r2 →
    replLastAux m o (ts1 ++ ts2) = some (ts1 ++ r2)
  | [], ts2, r2, h => by simpa using h
  | t :: ts1, ts2, r2, h => by
    rw [List.cons_append]
    unfold replLastAux
    rw [replLastAux_append m o ts1 ts2 r2 h]
    rfl

/-- The restore helper finds nothing among mark-free tokens. -/
theorem replLastAux_none (m o : Chars) : ∀ (ts : List Chars),
    (∀ t ∈ ts, containsSub t m = false) → replLastAux m o ts = none
  | [], _ => rfl
  | t :: ts, h => by
    unfold replLastAux
    rw [replLastAux_none m o ts (fun x hx => h x (List.mem_cons_of_mem t hx))]
    rw [h t (List.mem_cons_self t ts)]
    rfl

/-- Replacing the mark in a token that is exactly prefix-plus-mark, where
the prefix is `@`-free, restores prefix-plus-original. -/
theorem replaceFirst_exact (e o : Chars) : ∀ (a : Chars), hasChar '@' a = false →
    replaceFirstSub ('@' :: e) o (a ++ '@' :: e) = a ++ o
  | [], _ => by
    rw [List.nil_append]
    unfold replaceFirstSub
    rw [if_pos (isPrefixL_refl ('@' :: e))]
    simp
  | c :: a', h => by
    unfold hasChar at h
    rw [Bool.or_eq_false_iff] at h
    obtain ⟨h1, h2⟩ := h
    rw [List.cons_append]
    unfold replaceFirstSub
    rw [if_neg ?hp]
    case hp =>
      unfold isPrefixL
      simp only [Bool.and_eq_true, decide_eq_true_eq, not_and]
      intro he
      simp only [decide_eq_false_iff_not] at h1
      exact absurd he.symm h1
    rw [replaceFirst_exact e o a' h2]
    rfl

/-- Tokens of a restored segment contain no `@`. -/
theorem tokOrigSeg_noAt (s : PSeg) (hs : wfSeg s) :
    ∀ t ∈ tokOrigSeg s, hasChar '@' t = false := by
  cases s with
  | lit s0 =>
    intro t ht
    rcases List.mem_map.mp ht with ⟨c, hc, rfl⟩
    have := (plainLit_spec c (List.all_eq_true.mp hs c hc)).2.2.1
    simp [hasChar, this]
  | par n co =>
    intro t ht
    rcases List.mem_singleton.mp ht with rfl
    refine (hasChar_eq_false_iff '@' _).mpr ?_
    intro x hx
    unfold renderSeg at hx
    obtain ⟨-, hn, hco⟩ := hs
    rcases List.mem_cons.mp hx with rfl | hx2
    · decide
    rcases List.mem_append.mp hx2 with hm | hm
    · exact (plainLit_spec x (List.all_eq_true.mp hn x hm)).2.2.1
    · cases co with
      | none => simp at hm
      | some c0 =>
        obtain ⟨-, hc0⟩ := hco
        rcases List.mem_cons.mp hm with rfl | hm2
        · decide
        rcases List.mem_append.mp hm2 with hm3 | hm3
        · exact (plainConstr_spec x (List.all_eq_true.mp hc0 x hm3)).2.2.1
        · rcases List.mem_singleton.mp hm3 with rfl
          decide

/-- Tokens of a restored template contain no `@`. -/
theorem tokListOrig_noAt : ∀ (segs : List PSeg), (∀ s ∈ segs, wfSeg s) →
    ∀ t ∈ tokListOrig segs, hasChar '@' t = false
  | [], _ => by intro t ht; simp [tokListOrig] at ht
  | s :: rest, h => by
    intro t ht
    unfold tokListOrig at ht
    rcases List.mem_cons.mp ht with rfl | ht2
    · rfl
    rcases List.mem_append.mp ht2 with hm | hm
    · exact tokOrigSeg_noAt s (h s (List.mem_cons_self s rest)) t hm
    · exact tokListOrig_noAt rest (fun x hx => h x (List.mem_cons_of_mem s hx)) t hm

/-- The descending restore pass rebuilds the original tokens: each group's
mark is found in its own (still marked) token — all later tokens are already
restored and `@`-free — and is replaced by the original group text. -/
theorem restore_trie : ∀ (segs : List PSeg) (i : Nat) (pre : List Chars),
    (∀ s ∈ segs, wfSeg s) →
    restoreTokens (pre ++ tokListT i segs) (gListT i segs) = pre ++ tokListOrig segs
  | [], i, pre, _ => by simp [tokListT, gListT, restoreTokens, tokListOrig]
  | .lit s0 :: rest, i, pre, h => by
    have hrest : ∀ t ∈ rest, wfSeg t := fun t ht => h t (List.mem_cons_of_mem _ ht)
    have harr : pre ++ tokListT i (.lit s0 :: rest) =
        (pre ++ ['/'] :: s0.map (fun c => [c])) ++ tokListT (i + gCount (.lit s0)) rest := by
      simp [tokListT, tokOfMSeg]
    rw [show gListT i (.lit s0 :: rest) = gListT (i + gCount (.lit s0)) rest from rfl]
    rw [harr, restore_trie rest _ _ hrest]
    simp [tokListOrig, tokOrigSeg, renderSeg]
  | .par n none :: rest, i, pre, h => by
    have hrest : ∀ t ∈ rest, wfSeg t := fun t ht => h t (List.mem_cons_of_mem _ ht)
    have harr : pre ++ tokListT i (.par n none :: rest) =
        (pre ++ [['/'], ':' :: n]) ++ tokListT (i + gCount (.par n none)) rest := by
      simp [tokListT, tokOfMSeg]
    rw [show gListT i (.par n none :: rest) = gListT (i + gCount (.par n none)) rest from rfl]
    rw [harr, restore_trie rest _ _ hrest]
    simp [tokListOrig, tokOrigSeg, renderSeg]
  | .par n (some c0) :: rest, i, pre, h => by
    have hw := h _ (List.mem_cons_self _ rest)
    obtain ⟨hne, hn, -, hc0⟩ := hw
    have hrest : ∀ t ∈ rest, wfSeg t := fun t ht => h t (List.mem_cons_of_mem _ ht)
    have hg : gListT i (.par n (some c0) :: rest) =
        (markOfT i, '\x7b' :: (c0 ++ ['\x7d'])) :: gListT (i + 1) rest := rfl
    have harr : pre ++ tokListT i (.par n (some c0) :: rest) =
        (pre ++ [['/'], ':' :: (n ++ markOfT i)]) ++ tokListT (i + gCount (.par n (some c0))) rest := by
      simp [tokListT, tokOfMSeg]
    have hstep : restoreTokens (pre ++ tokListT i (.par n (some c0) :: rest))
        (gListT i (.par n (some c0) :: rest)) =
        replaceLastTok (markOfT i) ('\x7b' :: (c0 ++ ['\x7d']))
          (restoreTokens (pre ++ tokListT i (.par n (some c0) :: rest)) (gListT (i + 1) rest)) := by
      rw [hg]
      rfl
    rw [hstep, harr]
    rw [show gCount (.par n (some c0)) = 1 from rfl]
    rw [restore_trie rest (i + 1) _ hrest]
    have hsplit : (pre ++ [['/'], ':' :: (n ++ markOfT i)]) ++ tokListOrig rest =
        (pre ++ [['/']]) ++ ((':' :: (n ++ markOfT i)) :: tokListOrig rest) := by
      simp
    rw [hsplit]
    have hnoAtN : hasChar '@' (':' :: n) = false := by
      refine (hasChar_eq_false_iff '@' _).mpr ?_
      intro x hx
      rcases List.mem_cons.mp hx with rfl | hx2
      · decide
      · exact (plainLit_spec x (List.all_eq_true.mp hn x hx2)).2.2.1
    have haux : replLastAux (markOfT i) ('\x7b' :: (c0 ++ ['\x7d']))
        ((':' :: (n ++ markOfT i)) :: tokListOrig rest) =
        some ((':' :: (n ++ '\x7b' :: (c0 ++ ['\x7d']))) :: tokListOrig rest) := by
      unfold replLastAux
      rw [replLastAux_none _ _ (tokListOrig rest)
        (fun t ht => by
          rw [show markOfT i = '@' :: ('\\' :: natDec i) from rfl]
          exact containsSub_noAt t _ (tokListOrig_noAt rest hrest t ht))]
      rw [show (':' :: (n ++ markOfT i)) = (':' :: n) ++ markOfT i from by simp]
      rw [containsSub_suffix (':' :: n) (markOfT i)]
      rw [if_pos rfl]
      rw [show markOfT i = '@' :: ('\\' :: natDec i) from rfl]
      rw [replaceFirst_exact ('\\' :: natDec i) ('\x7b' :: (c0 ++ ['\x7d'])) (':' :: n) hnoAtN]
      simp
    unfold replaceLastTok
    rw [replLastAux_append _ _ (pre ++ [['/']]) _ _ haux]
    simp [tokListOrig, tokOrigSeg, renderSeg]

/-! ### The split-router pass (offset-based marks) -/

/-- Rendered length of a segment. -/
def segLen (s : PSeg) : Nat := (renderSeg s).length

/-- Marked segment under the offset pass: `pos` is the position of the
segment's leading `/`, so the group's `\x7b` sits at `pos + 2 + |name|`. -/
def mSegS (pos : Nat) : PSeg → Chars
  | .lit s => s
  | .par n none => ':' :: n
  | .par n (some _) => ':' :: (n ++ markOfS (pos + 2 + n.length))

/-- Marked template under the offset pass. -/
def mRenderS : Nat → List PSeg → Chars
  | _, [] => []
  | pos, s :: rest => '/' :: (mSegS pos s ++ mRenderS (pos + 1 + segLen s) rest)

/-- Groups collected by the offset pass. -/
def gListS : Nat → List PSeg → List (Chars × Chars)
  | _, [] => []
  | pos, .par n (some c) :: rest =>
    (markOfS (pos + 2 + n.length), '\x7b' :: (c ++ ['\x7d'])) ::
      gListS (pos + 1 + segLen (.par n (some c))) rest
  | pos, s :: rest => gListS (pos + 1 + segLen s) rest

/-- Marked segments of the template, in order. -/
def msegListS : Nat → List PSeg → List Chars
  | _, [] => []
  | pos, s :: rest => mSegS pos s :: msegListS (pos + 1 + segLen s) rest

/-- A brace-free prefix passes through the offset scan unchanged, advancing
the position by its length. -/
theorem extractCore_app : ∀ (s : Chars) (r : Chars) (pos : Nat), (∀ c ∈ s, c ≠ '\x7b') →
    extractCore pos none (s ++ r) =
      (s ++ (extractCore (pos + s.length) none r).1,
       (extractCore (pos + s.length) none r).2)
  | [], r, pos, _ => by simp
  | c :: s', r, pos, h => by
    rw [List.cons_append]
    have hc : ¬ c = '\x7b' := h c (List.mem_cons_self c s')
    conv_lhs => unfold extractCore
    dsimp only
    rw [if_neg hc, extractCore_app s' r (pos + 1) (fun x hx => h x (List.mem_cons_of_mem c hx))]
    have harith : pos + 1 + s'.length = pos + (c :: s').length := by
      simp [List.length_cons]
      omega
    rw [harith]
    rfl

/-- Scanning a `}`-free body inside an open offset group emits the offset
mark and collects the original group text. -/
theorem extractCore_group (r : Chars) : ∀ (body b : Chars) (pos p0 : Nat),
    (∀ c ∈ body, c ≠ '\x7d') → b.reverse ++ body ≠ [] →
    extractCore pos (some (p0, b)) (body ++ '\x7d' :: r) =
      (markOfS p0 ++ (extractCore (pos + body.length + 1) none r).1,
       (markOfS p0, '\x7b' :: ((b.reverse ++ body) ++ ['\x7d'])) ::
         (extractCore (pos + body.length + 1) none r).2)
  | [], b, pos, p0, _, hne => by
    have hb : ¬ b = [] := by
      intro hb
      exact hne (by simp [hb])
    rw [List.nil_append]
    conv_lhs => unfold extractCore
    dsimp only
    rw [if_pos rfl, if_neg hb]
    simp [markOfS]
  | c :: body', b, pos, p0, hall, hne => by
    have hc : ¬ c = '\x7d' := hall c (List.mem_cons_self c body')
    rw [List.cons_append]
    conv_lhs => unfold extractCore
    dsimp only
    rw [if_neg hc,
      extractCore_group r body' (c :: b) (pos + 1) p0
        (fun x hx => hall x (List.mem_cons_of_mem c hx)) (by simp)]
    have harith : pos + 1 + body'.length + 1 = pos + (c :: body').length + 1 := by
      simp [List.length_cons]
      omega
    rw [harith]
    simp

/-- The rendered length of a constrained parameter. -/
theorem segLen_par_some (n c0 : Chars) :
    segLen (.par n (some c0)) = n.length + c0.length + 3 := by
  simp [segLen, renderSeg]
  omega

/-- The offset scan maps a well-formed template to its offset-marked form
and collects exactly the constrained-parameter groups with their offsets. -/
theorem extractCore_render : ∀ (segs : List PSeg) (pos : Nat), (∀ s ∈ segs, wfSeg s) →
    extractCore pos none (renderTmpl segs) = (mRenderS pos segs, gListS pos segs)
  | [], pos, _ => by simp [renderTmpl, extractCore, mRenderS, gListS]
  | .lit s0 :: rest, pos, h => by
    have hw := h _ (List.mem_cons_self _ rest)
    have hrest : ∀ s ∈ rest, wfSeg s := fun t ht => h t (List.mem_cons_of_mem _ ht)
    rw [renderTmpl_cons]
    rw [extractCore_app ('/' :: renderSeg (.lit s0)) (renderTmpl rest) pos ?nb]
    case nb =>
      intro c hc
      rcases List.mem_cons.mp hc with rfl | hc2
      · decide
      · exact (plainLit_spec c (List.all_eq_true.mp hw c hc2)).1
    rw [extractCore_render rest _ hrest]
    have harith : pos + ('/' :: renderSeg (.lit s0)).length = pos + 1 + segLen (.lit s0) := by
      simp [segLen]
      omega
    rw [harith]
    simp [mRenderS, gListS, mSegS, renderSeg]
  | .par n none :: rest, pos, h => by
    have hw := h _ (List.mem_cons_self _ rest)
    obtain ⟨-, hn, -⟩ := hw
    have hrest : ∀ s ∈ rest, wfSeg s := fun t ht => h t (List.mem_cons_of_mem _ ht)
    rw [renderTmpl_cons]
    rw [extractCore_app ('/' :: renderSeg (.par n none)) (renderTmpl rest) pos ?nb]
    case nb =>
      intro c hc
      rcases List.mem_cons.mp hc with rfl | hc2
      · decide
      · unfold renderSeg at hc2
        rcases List.mem_cons.mp hc2 with rfl | hc3
        · decide
        · rw [List.append_nil] at hc3
          exact (plainLit_spec c (List.all_eq_true.mp hn c hc3)).1
    rw [extractCore_render rest _ hrest]
    have harith : pos + ('/' :: renderSeg (.par n none)).length = pos + 1 + segLen (.par n none) := by
      simp [segLen]
      omega
    rw [harith]
    simp [mRenderS, gListS, mSegS, renderSeg]
  | .par n (some c0) :: rest, pos, h => by
    have hw := h _ (List.mem_cons_self _ rest)
    obtain ⟨-, hn, hc0ne, hc0⟩ := hw
    have hrest : ∀ s ∈ rest, wfSeg s := fun t ht => h t (List.mem_cons_of_mem _ ht)
    rw [renderTmpl_cons]
    have hdec : ('/' :: renderSeg (.par n (some c0))) ++ renderTmpl rest =
        ('/' :: ':' :: n) ++ ('\x7b' :: (c0 ++ '\x7d' :: renderTmpl rest)) := by
      unfold renderSeg
      simp
    rw [hdec]
    rw [extractCore_app ('/' :: ':' :: n) _ pos ?nb]
    case nb =>
      intro c hc
      rcases List.mem_cons.mp hc with rfl | hc2
      · decide
      rcases List.mem_cons.mp hc2 with rfl | hc3
      · decide
      · exact (plainLit_spec c (List.all_eq_true.mp hn c hc3)).1
    have hlen : pos + ('/' :: ':' :: n).length = pos + 2 + n.length := by
      simp [List.length_cons]
      omega
    rw [hlen]
    have hbrace : extractCore (pos + 2 + n.length) none
        ('\x7b' :: (c0 ++ '\x7d' :: renderTmpl rest)) =
        extractCore (pos + 2 + n.length + 1) (some (pos + 2 + n.length, []))
          (c0 ++ '\x7d' :: renderTmpl rest) := by
      conv_lhs => unfold extractCore
      rw [if_pos rfl]
    rw [hbrace]
    rw [extractCore_group (renderTmpl rest) c0 [] (pos + 2 + n.length + 1) (pos + 2 + n.length)
      (fun c hc => (plainConstr_spec c (List.all_eq_true.mp hc0 c hc)).2.1)
      (by simpa using hc0ne)]
    rw [extractCore_render rest _ hrest]
    have harith : pos + 2 + n.length + 1 + c0.length + 1 = pos + 1 + segLen (.par n (some c0)) := by
      rw [segLen_par_some]
      omega
    rw [harith]
    simp [mRenderS, gListS, mSegS, renderSeg, markOfS]

/-- Splitting after a leading separator. -/
theorem splitAll_cons_slash (r : Chars) : splitAll '/' ('/' :: r) = [] :: splitAll '/' r := by
  conv_lhs => unfold splitAll
  rw [if_pos rfl]

/-- A separator-free prefix joins the first piece of the split. -/
theorem splitAll_app_noslash : ∀ (a r : Chars) (s : Chars) (ss : List Chars),
    (∀ c ∈ a, c ≠ '/') → splitAll '/' r = s :: ss →
    splitAll '/' (a ++ r) = (a ++ s) :: ss
  | [], r, s, ss, _, hr => by simpa using hr
  | c :: a', r, s, ss, h, hr => by
    have hc : ¬ c = '/' := h c (List.mem_cons_self c a')
    rw [List.cons_append]
    unfold splitAll
    rw [if_neg hc,
      splitAll_app_noslash a' r s ss (fun x hx => h x (List.mem_cons_of_mem c hx)) hr]
    rfl

/-- Characters of an offset-marked segment. -/
theorem mSegS_chars (pos : Nat) (s : PSeg) (hs : wfSeg s) : ∀ c ∈ mSegS pos s,
    c = ':' ∨ plainLitChar c = true ∨ c = '@' ∨ c ∈ cs "0123456789" := by
  intro c hc
  cases s with
  | lit s0 =>
    exact Or.inr (Or.inl (List.all_eq_true.mp hs c hc))
  | par n co =>
    obtain ⟨-, hn, -⟩ := hs
    cases co with
    | none =>
      rcases List.mem_cons.mp hc with rfl | hc2
      · exact Or.inl rfl
      · exact Or.inr (Or.inl (List.all_eq_true.mp hn c hc2))
    | some c0 =>
      rcases List.mem_cons.mp hc with rfl | hc2
      · exact Or.inl rfl
      rcases List.mem_append.mp hc2 with hm | hm
      · exact Or.inr (Or.inl (List.all_eq_true.mp hn c hm))
      · rcases markOfS_chars _ c hm with h1 | h1
        · exact Or.inr (Or.inr (Or.inl h1))
        · exact Or.inr (Or.inr (Or.inr h1))

/-- An offset-marked segment contains no `/`. -/
theorem mSegS_noSlash (pos : Nat) (s : PSeg) (hs : wfSeg s) :
    ∀ c ∈ mSegS pos s, c ≠ '/' := by
  intro c hc
  rcases mSegS_chars pos s hs c hc with rfl | h1 | rfl | h1
  · decide
  · exact (plainLit_spec c h1).2.2.2.2.1
  · decide
  · exact fun he => absurd (he ▸ h1) (by decide)

/-- Splitting the offset-marked template yields the marked segments after a
leading empty piece. -/
theorem splitAll_mRenderS : ∀ (segs : List PSeg) (pos : Nat), (∀ s ∈ segs, wfSeg s) →
    splitAll '/' (mRenderS pos segs) = [] :: msegListS pos segs
  | [], pos, _ => rfl
  | s :: rest, pos, h => by
    have hw := h _ (List.mem_cons_self _ rest)
    have hrest : ∀ t ∈ rest, wfSeg t := fun t ht => h t (List.mem_cons_of_mem _ ht)
    show splitAll '/' ('/' :: (mSegS pos s ++ mRenderS (pos + 1 + segLen s) rest)) = _
    rw [splitAll_cons_slash]
    have hih := splitAll_mRenderS rest (pos + 1 + segLen s) hrest
    rw [splitAll_app_noslash (mSegS pos s) _ [] (msegListS (pos + 1 + segLen s) rest)
      (mSegS_noSlash pos s hw) hih]
    simp [msegListS]

/-- A restored segment contains no `@`. -/
theorem renderSeg_noAt (s : PSeg) (hs : wfSeg s) : hasChar '@' (renderSeg s) = false := by
  refine (hasChar_eq_false_iff '@' _).mpr ?_
  intro x hx
  cases s with
  | lit s0 =>
    exact (plainLit_spec x (List.all_eq_true.mp hs x hx)).2.2.1
  | par n co =>
    obtain ⟨-, hn, hco⟩ := hs
    unfold renderSeg at hx
    rcases List.mem_cons.mp hx with rfl | hx2
    · decide
    rcases List.mem_append.mp hx2 with hm | hm
    · exact (plainLit_spec x (List.all_eq_true.mp hn x hm)).2.2.1
    · cases co with
      | none => simp at hm
      | some c0 =>
        obtain ⟨-, hc0⟩ := hco
        rcases List.mem_cons.mp hm with rfl | hm2
        · decide
        rcases List.mem_append.mp hm2 with hm3 | hm3
        · exact (plainConstr_spec x (List.all_eq_true.mp hc0 x hm3)).2.2.1
        · rcases List.mem_singleton.mp hm3 with rfl
          decide

/-- The descending restore over split segments rebuilds the original
segments. -/
theorem restore_split : ∀ (segs : List PSeg) (pos : Nat) (pre : List Chars),
    (∀ s ∈ segs, wfSeg s) →
    replaceGroupMarks (pre ++ msegListS pos segs) (gListS pos segs) =
      pre ++ segs.map renderSeg
  | [], pos, pre, _ => by simp [msegListS, gListS, replaceGroupMarks]
  | .lit s0 :: rest, pos, pre, h => by
    have hrest : ∀ t ∈ rest, wfSeg t := fun t ht => h t (List.mem_cons_of_mem _ ht)
    have harr : pre ++ msegListS pos (.lit s0 :: rest) =
        (pre ++ [s0]) ++ msegListS (pos + 1 + segLen (.lit s0)) rest := by
      simp [msegListS, mSegS]
    rw [show gListS pos (.lit s0 :: rest) = gListS (pos + 1 + segLen (.lit s0)) rest from rfl]
    rw [harr, restore_split rest _ _ hrest]
    simp [renderSeg]
  | .par n none :: rest, pos, pre, h => by
    have hrest : ∀ t ∈ rest, wfSeg t := fun t ht => h t (List.mem_cons_of_mem _ ht)
    have harr : pre ++ msegListS pos (.par n none :: rest) =
        (pre ++ [':' :: n]) ++ msegListS (pos + 1 + segLen (.par n none)) rest := by
      simp [msegListS, mSegS]
    rw [show gListS pos (.par n none :: rest) = gListS (pos + 1 + segLen (.par n none)) rest
      from rfl]
    rw [harr, restore_split rest _ _ hrest]
    simp [renderSeg]
  | .par n (some c0) :: rest, pos, pre, h => by
    have hw := h _ (List.mem_cons_self _ rest)
    obtain ⟨hne, hn, -, hc0⟩ := hw
    have hrest : ∀ t ∈ rest, wfSeg t := fun t ht => h t (List.mem_cons_of_mem _ ht)
    have hg : gListS pos (.par n (some c0) :: rest) =
        (markOfS (pos + 2 + n.length), '\x7b' :: (c0 ++ ['\x7d'])) ::
          gListS (pos + 1 + segLen (.par n (some c0))) rest := rfl
    have hstep : replaceGroupMarks (pre ++ msegListS pos (.par n (some c0) :: rest))
        (gListS pos (.par n (some c0) :: rest)) =
        replaceLastTok (markOfS (pos + 2 + n.length)) ('\x7b' :: (c0 ++ ['\x7d']))
          (replaceGroupMarks (pre ++ msegListS pos (.par n (some c0) :: rest))
            (gListS (pos + 1 + segLen (.par n (some c0))) rest)) := by
      rw [hg]
      rfl
    have harr : pre ++ msegListS pos (.par n (some c0) :: rest) =
        (pre ++ [':' :: (n ++ markOfS (pos + 2 + n.length))]) ++
          msegListS (pos + 1 + segLen (.par n (some c0))) rest := by
      simp [msegListS, mSegS]
    rw [hstep, harr, restore_split rest _ _ hrest]
    have hsplit : (pre ++ [':' :: (n ++ markOfS (pos + 2 + n.length))]) ++ rest.map renderSeg =
        pre ++ ((':' :: (n ++ markOfS (pos + 2 + n.length))) :: rest.map renderSeg) := by
      simp
    rw [hsplit]
    have hnoAtN : hasChar '@' (':' :: n) = false := by
      refine (hasChar_eq_false_iff '@' _).mpr ?_
      intro x hx
      rcases List.mem_cons.mp hx with rfl | hx2
      · decide
      · exact (plainLit_spec x (List.all_eq_true.mp hn x hx2)).2.2.1
    have haux : replLastAux (markOfS (pos + 2 + n.length)) ('\x7b' :: (c0 ++ ['\x7d']))
        ((':' :: (n ++ markOfS (pos + 2 + n.length))) :: rest.map renderSeg) =
        some ((':' :: (n ++ '\x7b' :: (c0 ++ ['\x7d']))) :: rest.map renderSeg) := by
      unfold replLastAux
      rw [replLastAux_none _ _ (rest.map renderSeg)
        (fun t ht => by
          rcases List.mem_map.mp ht with ⟨s2, hs2, rfl⟩
          rw [show markOfS (pos + 2 + n.length) = '@' :: natDec (pos + 2 + n.length) from rfl]
          exact containsSub_noAt _ _ (renderSeg_noAt s2 (hrest s2 hs2)))]
      rw [show (':' :: (n ++ markOfS (pos + 2 + n.length))) =
        (':' :: n) ++ markOfS (pos + 2 + n.length) from by simp]
      rw [containsSub_suffix (':' :: n) (markOfS (pos + 2 + n.length))]
      rw [if_pos rfl]
      rw [show markOfS (pos + 2 + n.length) = '@' :: natDec (pos + 2 + n.length) from rfl]
      rw [replaceFirst_exact (natDec (pos + 2 + n.length)) ('\x7b' :: (c0 ++ ['\x7d']))
        (':' :: n) hnoAtN]
      simp
    unfold replaceLastTok
    rw [replLastAux_append _ _ pre _ _ haux]
    simp [renderSeg]

/-- Flattening singletons recovers the string. -/
theorem flatten_map_singleton : ∀ (l : Chars), (l.map (fun c => [c])).flatten = l
  | [] => rfl
  | c :: l' => by simp [flatten_map_singleton l']

/-- The tokens of one restored segment concatenate to its text. -/
theorem tokOrigSeg_flatten (s : PSeg) : (tokOrigSeg s).flatten = renderSeg s := by
  cases s with
  | lit s0 => exact flatten_map_singleton s0
  | par n co => simp [tokOrigSeg]

/-- The restored tokens concatenate to the original template. -/
theorem tokListOrig_flatten : ∀ (segs : List PSeg), (tokListOrig segs).flatten = renderTmpl segs
  | [] => rfl
  | s :: rest => by
    rw [renderTmpl_cons]
    show (['/'] :: (tokOrigSeg s ++ tokListOrig rest)).flatten = _
    simp [tokOrigSeg_flatten, tokListOrig_flatten rest]

/-- The full `Trie.insert` tokenization of a well-formed template produces
the restored tokens. -/
theorem trieTokens_render (segs : List PSeg) (h : ∀ s ∈ segs, wfSeg s) :
    trieTokens (renderTmpl segs) = tokListOrig segs := by
  unfold trieTokens
  rw [braceLoop_render segs h]
  show restoreTokens (tokCore none (mRenderT 0 segs)) (gListT 0 segs) = _
  rw [tokCore_mRenderT segs 0 h]
  have hr := restore_trie segs 0 [] h
  rwa [List.nil_append, List.nil_append] at hr

/-- `splitRoutingPath` of a well-formed template returns exactly its
segments. -/
theorem splitRoutingPath_render (segs : List PSeg) (h : ∀ s ∈ segs, wfSeg s) :
    splitRoutingPath (renderTmpl segs) = segs.map renderSeg := by
  unfold splitRoutingPath extractGroupsFromPath
  rw [extractCore_render segs 0 h]
  show replaceGroupMarks (splitPath (mRenderS 0 segs)) (gListS 0 segs) = _
  cases segs with
  | nil => rfl
  | cons s rest =>
    have hsp : splitPath (mRenderS 0 (s :: rest)) = msegListS 0 (s :: rest) := by
      unfold splitPath
      rw [splitAll_mRenderS (s :: rest) 0 h]
    rw [hsp]
    have hr := restore_split (s :: rest) 0 [] h
    rwa [List.nil_append, List.nil_append] at hr

/-- C9 (amended): for every well-formed template built from `/`-separated
literal and `:name` / `:name\x7bconstraint\x7d` segments over ordinary
characters — constraints may contain `/` — the placeholder/restore pass is a
round trip: the concatenation of the tokens produced by `Trie.insert`
reconstructs the original template, and `splitRoutingPath` returns exactly
the original segments. -/
theorem claim9_amended_roundtrip (segs : List PSeg) (h : ∀ s ∈ segs, wfSeg s) :
    (trieTokens (renderTmpl segs)).flatten = renderTmpl segs ∧
    splitRoutingPath (renderTmpl segs) = segs.map renderSeg :=
  ⟨by rw [trieTokens_render segs h, tokListOrig_flatten], splitRoutingPath_render segs h⟩

/-- The round trip at the concrete template `/api/:id\x7b[0-9/]+\x7d`, whose
constraint contains a `/`. -/
theorem claim9_witness :
    (∀ s ∈ [PSeg.lit (cs "api"), PSeg.par (cs "id") (some (cs "[0-9/]+"))], wfSeg s) ∧
    (trieTokens (renderTmpl
        [PSeg.lit (cs "api"), PSeg.par (cs "id") (some (cs "[0-9/]+"))])).flatten =
      renderTmpl [PSeg.lit (cs "api"), PSeg.par (cs "id") (some (cs "[0-9/]+"))] ∧
    splitRoutingPath (renderTmpl
        [PSeg.lit (cs "api"), PSeg.par (cs "id") (some (cs "[0-9/]+"))]) =
      [PSeg.lit (cs "api"), PSeg.par (cs "id") (some (cs "[0-9/]+"))].map renderSeg := by
  have hwf : ∀ s ∈ [PSeg.lit (cs "api"), PSeg.par (cs "id") (some (cs "[0-9/]+"))], wfSeg s := by
    intro s hs
    simp only [List.mem_cons, List.not_mem_nil, or_false] at hs
    rcases hs with rfl | rfl
    · show (cs "api").all plainLitChar = true
      decide
    · exact ⟨by decide, by decide, by decide, by decide⟩
  exact ⟨hwf, claim9_amended_roundtrip _ hwf⟩
